import Mathlib

/-!
# Verification of the go-vjson versioning engine

Shallow embedding of the vjson package (src/main.go): a registry mapping
live struct types to compiled entries, a reflection-style field mapper,
the `Marshal` encoder (version stamping / splicing) and the `Unmarshal`
decoder (version detection, stepwise upgrade chain, finalization).

Modelling conventions, stated once:
* Go `reflect.Type` identity is modelled by structural equality of `GoType`;
  distinct Go types are assumed to carry distinct `sname`s.
* A struct value is a positional list of `JValue`s, one per direct field.
  Go struct values always have exactly their type's fields; list update
  (`List.set`) is a no-op out of range exactly where Go could not reach.
* The external codec (encoding/json) is modelled by `jsonEncodeStruct` /
  `jsonDecodeStruct`: keys are field names, unknown keys are ignored,
  later duplicate keys win, type-mismatched values are errors.  Byte
  output is a `List Char`.  Case-insensitive key fallback and json tags
  are outside the spec's scope and not modelled.
* Optional hook methods (`Upgrade`, `Pack`, `Unpack`) are carried next to
  each prototype as optional Lean functions; presence of the method is
  `Option.isSome`, mirroring `reflect.Type.MethodByName`.
* `sort.Slice` in the source is an unstable sort by source index; the model
  uses an insertion sort by the same key.  Mappings that compare equal have
  equal `src` and distinct `dst`, so every admissible order copies the same
  data.
-/

namespace VJson

/-- One JSON-representable Go value.  `opaque` stands for a value of any
further Go type, identified by its type name, so that field copying and
type-identity checks are meaningful beyond int/string/bool. -/
inductive JValue where
  | int (i : Int)
  | str (s : String)
  | bool (b : Bool)
  | opaq (tyname : String) (v : Nat)
deriving DecidableEq, Repr

/-- A direct (top-level) struct field: name, declared type (by name), and
the optional `vjson:"..."` tag (`reflect.StructTag.Lookup "vjson"`). -/
structure Field where
  name : String
  vtype : String
  tag : Option String
deriving DecidableEq, Repr

/-- A field reachable only through an embedded struct: `reflect.FieldByName`
finds it with `len(Index) > 1`; `index0` is `Index[0]`. -/
structure PromotedField where
  name : String
  vtype : String
  index0 : Nat
deriving DecidableEq, Repr

/-- A Go struct type: its name, its direct fields in declaration order, and
the promoted fields visible to `FieldByName`. -/
structure GoStruct where
  sname : String
  fields : List Field
  promoted : List PromotedField
deriving DecidableEq, Repr

/-- A Go type as seen by `reflect.TypeOf`: a struct, or some non-struct
kind identified by name. -/
inductive GoType where
  | strukt (s : GoStruct)
  | named (n : String)
deriving DecidableEq, Repr

def typeName : GoType → String
  | .strukt s => s.sname
  | .named n => n

/-- A struct value: one `JValue` per direct field, positionally. -/
abbrev StructVal := List JValue

/-- Result of `reflect.Type.FieldByName`: resolved field data plus the
length of the index path (1 for a direct field, 2 standing for >1). -/
structure FoundField where
  name : String
  vtype : String
  index0 : Nat
  indexLen : Nat
deriving DecidableEq, Repr

def findDirectAux (n : String) (i : Nat) : List Field → Option (Nat × Field)
  | [] => none
  | f :: rest => if f.name = n then some (i, f) else findDirectAux n (i + 1) rest

/-- Position and data of the direct field named `n`, if any. -/
def findDirect (fs : List Field) (n : String) : Option (Nat × Field) :=
  findDirectAux n 0 fs

/-- `reflect.Type.FieldByName`: direct fields shadow promoted ones. -/
def fieldByName (s : GoStruct) (n : String) : Option FoundField :=
  match findDirect s.fields n with
  | some (i, f) => some ⟨f.name, f.vtype, i, 1⟩
  | none =>
    match s.promoted.find? (fun p => p.name = n) with
    | some p => some ⟨p.name, p.vtype, p.index0, 2⟩
    | none => none

/-- `FieldByName` restricted to direct fields, as used by the adjacent-pair
mapper (`ok && len(srcField.Index) != 1` demotes promoted hits). -/
def directSource (s : GoStruct) (n : String) : Option FoundField :=
  match fieldByName s n with
  | some ff => if ff.indexLen ≠ 1 then none else some ff
  | none => none

/-- A compiled copy instruction (`mapping` in the source). -/
structure Mapping where
  src : Nat
  dst : Nat
deriving DecidableEq, Repr

/-- Zero value of a field type, as `reflect.New` produces it. -/
def zeroOf : String → JValue
  | "int" => .int 0
  | "string" => .str ""
  | "bool" => .bool false
  | t => .opaq t 0

def zeroVal (s : GoStruct) : StructVal := s.fields.map (fun f => zeroOf f.vtype)

/-- `copyFields` from the source: `dst.Field(m.dst).Set(src.Field(m.src))`. -/
def copyFields (src dst : StructVal) (ms : List Mapping) : StructVal :=
  ms.foldl (fun d m => d.set m.dst (src.getD m.src (.int 0))) dst

/-- An optional hook method with pointer receiver: it receives (receiver
value, argument value) and yields the receiver's new contents or an error,
mirroring `callErrorFunction`. -/
abbrev Hook := StructVal → StructVal → Except String StructVal

/-- The method set found on a prototype via `reflect.PtrTo(t).MethodByName`. -/
structure Methods where
  upgrade : Option Hook
  pack : Option Hook
  unpack : Option Hook

def noMethods : Methods := ⟨none, none, none⟩

/-- A prototype as passed to `Register`: only its type and method set matter. -/
structure Proto where
  typ : GoType
  methods : Methods

/-- Registration-time errors (`registerError` return values). -/
inductive RegErr where
  | notStruct (t : String)
  | alreadyRegistered (t : String)
  | noVersions
  | reservedVersion (t : String)
  | versionNotStruct (t : String) (v : Nat)
  | duplicateInCall (t : String) (v : Nat)
  | missingTagSource (dstF dstT tag srcT : String)
  | renamedTypeMismatch (srcF dstF : String)
  | typeMismatch (f : String)
  | packNotLatest (t : String)
  | unpackNotLatest (t : String)
  | versionEmbedded (t : String)
  | versionNotInt (t : String)
deriving DecidableEq, Repr

/-- Shared tail of the per-field resolution: look `srcName` up as a direct
field of the previous shape, skip or fail when absent depending on whether
the name came from an explicit tag, and check type identity. -/
def resolveNamed (lastS dstS : GoStruct) (i : Nat) (f : Field)
    (srcName : String) (required : Bool) : Except RegErr (Option Mapping) :=
  match directSource lastS srcName with
  | none =>
    if required then .error (.missingTagSource f.name dstS.sname srcName lastS.sname)
    else .ok none
  | some ff =>
    if ff.vtype ≠ f.vtype then
      if ff.name ≠ f.name then .error (.renamedTypeMismatch ff.name f.name)
      else .error (.typeMismatch f.name)
    else .ok (some ⟨ff.index0, i⟩)

/-- Resolve one destination field of the adjacent-pair mapper: honor the
`vjson` tag (empty tag skips, non-empty renames and becomes required),
look the source name up as a direct field, check type identity. -/
def resolvePairField (lastS dstS : GoStruct) (i : Nat) (f : Field) :
    Except RegErr (Option Mapping) :=
  match f.tag with
  | some tg =>
    if tg = "" then .ok none
    else resolveNamed lastS dstS i f tg true
  | none => resolveNamed lastS dstS i f f.name false

def collectPair (lastS dstS : GoStruct) (i : Nat) :
    List Field → Except RegErr (List Mapping)
  | [] => .ok []
  | f :: rest =>
    match resolvePairField lastS dstS i f with
    | .error e => .error e
    | .ok m? =>
      match collectPair lastS dstS (i + 1) rest with
      | .error e => .error e
      | .ok ms =>
        .ok (match m? with
          | some m => m :: ms
          | none => ms)

def insertBySrc (m : Mapping) : List Mapping → List Mapping
  | [] => [m]
  | x :: xs => if m.src ≤ x.src then m :: x :: xs else x :: insertBySrc m xs

def sortBySrc : List Mapping → List Mapping
  | [] => []
  | m :: ms => insertBySrc m (sortBySrc ms)

/-- Adjacent-pair field mapper: iterate `dstS`'s direct fields, then order
the collected pairs by source index (`sort.Slice` in the source). -/
def computePairMappings (lastS dstS : GoStruct) : Except RegErr (List Mapping) :=
  match collectPair lastS dstS 0 dstS.fields with
  | .error e => .error e
  | .ok ms => .ok (sortBySrc ms)

/-- LiveType → latest mapper (encode direction, absent a Pack hook):
iterate the live type's direct fields, match by name alone via full
`FieldByName`, require identical types. -/
def collectMarshal (lastS : GoStruct) (i : Nat) :
    List Field → Except RegErr (List Mapping)
  | [] => .ok []
  | f :: rest =>
    match fieldByName lastS f.name with
    | none => collectMarshal lastS (i + 1) rest
    | some ff =>
      if ff.vtype ≠ f.vtype then .error (.typeMismatch f.name)
      else
        match collectMarshal lastS (i + 1) rest with
        | .error e => .error e
        | .ok ms => .ok (⟨i, ff.index0⟩ :: ms)

def computeMarshalMappings (entryS lastS : GoStruct) : Except RegErr (List Mapping) :=
  collectMarshal lastS 0 entryS.fields

/-- latest → LiveType mapper (decode direction, absent an Unpack hook):
iterate the latest shape's direct fields, match by name on the live type. -/
def collectUnmarshal (entryS : GoStruct) (i : Nat) :
    List Field → Except RegErr (List Mapping)
  | [] => .ok []
  | f :: rest =>
    match fieldByName entryS f.name with
    | none => collectUnmarshal entryS (i + 1) rest
    | some ff =>
      if ff.vtype ≠ f.vtype then .error (.typeMismatch f.name)
      else
        match collectUnmarshal entryS (i + 1) rest with
        | .error e => .error e
        | .ok ms => .ok (⟨i, ff.index0⟩ :: ms)

def computeUnmarshalMappings (lastS entryS : GoStruct) : Except RegErr (List Mapping) :=
  collectUnmarshal entryS 0 lastS.fields

/-- Per-version compiled data (`versionContext`). -/
structure VersionCtx where
  rtype : GoStruct
  mappings : List Mapping
  upgradeFunc : Option Hook

/-- Encode-side compiled data (`marshalContext`); `versionField` is the
index of a top-level `Version int` field on the latest shape, or -1. -/
structure MarshalCtx where
  rtype : GoStruct
  packFunc : Option Hook
  mappings : List Mapping
  versionField : Int

structure UnmarshalCtx where
  unpackFunc : Option Hook
  mappings : List Mapping

/-- A compiled registry entry.  The source stores `latestVersion =
len(versionPrototypes)` and a map from 1..latest to contexts; here
`versions` is the same data as a list (version k at index k-1) and the
latest version number is its length. -/
structure Entry where
  versions : List VersionCtx
  marshal : MarshalCtx
  unmarshal : UnmarshalCtx

def Entry.latest (e : Entry) : Nat := e.versions.length

/-- The process-wide registry `entryByType`, as an association list. -/
abbrev Registry := List (GoType × Entry)

def lookupReg : Registry → GoType → Option Entry
  | [], _ => none
  | (k, e) :: rest, t => if t = k then some e else lookupReg rest t

/-- The per-version loop of `registerError`: kind check, duplicate check,
adjacent-pair mapping, upgrade hook lookup, Pack/Unpack rejection on
non-latest shapes.  Returns the version contexts, the latest shape and the
latest prototype's method set.  Only called with a nonempty list. -/
def buildVersionList (seen : List GoType) (lastS : Option GoStruct) (ver : Nat) :
    List Proto → Except RegErr (List VersionCtx × GoStruct × Methods)
  | [] => .error .noVersions
  | vp :: rest =>
    match vp.typ with
    | .named n => .error (.versionNotStruct n ver)
    | .strukt rtype =>
      if vp.typ ∈ seen then .error (.duplicateInCall rtype.sname ver)
      else
        match (match lastS with
          | none => Except.ok []
          | some ls => computePairMappings ls rtype) with
        | .error e => .error e
        | .ok mappings =>
          if !rest.isEmpty && vp.methods.pack.isSome then .error (.packNotLatest rtype.sname)
          else if !rest.isEmpty && vp.methods.unpack.isSome then .error (.unpackNotLatest rtype.sname)
          else if rest.isEmpty then
            .ok ([⟨rtype, mappings, vp.methods.upgrade⟩], rtype, vp.methods)
          else
            match buildVersionList (vp.typ :: seen) (some rtype) (ver + 1) rest with
            | .error e => .error e
            | .ok (ctxs, ls, lm) =>
              .ok (⟨rtype, mappings, vp.methods.upgrade⟩ :: ctxs, ls, lm)

/-- `registerError` from the source: all validation, then the compiled
entry; the registry is only consulted, never modified. -/
def registerError (reg : Registry) (p : Proto) (vps : List Proto) :
    Except RegErr Entry :=
  match p.typ with
  | .named n => .error (.notStruct n)
  | .strukt entryS =>
    match lookupReg reg p.typ with
    | some _ => .error (.alreadyRegistered entryS.sname)
    | none =>
    match vps with
    | [] => .error .noVersions
    | _ :: _ =>
    match fieldByName entryS "Version" with
    | some _ => .error (.reservedVersion entryS.sname)
    | none =>
      match buildVersionList [p.typ] none 1 vps with
      | .error e => .error e
      | .ok (ctxs, lastS, lastM) =>
        match fieldByName lastS "Version" with
        | some ff =>
          if ff.indexLen ≠ 1 then .error (.versionEmbedded lastS.sname)
          else if ff.vtype ≠ "int" then .error (.versionNotInt lastS.sname)
          else
            match (match lastM.pack with
              | some _ => Except.ok []
              | none => computeMarshalMappings entryS lastS) with
            | .error e => .error e
            | .ok mm =>
              match (match lastM.unpack with
                | some _ => Except.ok []
                | none => computeUnmarshalMappings lastS entryS) with
              | .error e => .error e
              | .ok um =>
                .ok ⟨ctxs, ⟨lastS, lastM.pack, mm, (ff.index0 : Int)⟩, ⟨lastM.unpack, um⟩⟩
        | none =>
          match (match lastM.pack with
            | some _ => Except.ok []
            | none => computeMarshalMappings entryS lastS) with
          | .error e => .error e
          | .ok mm =>
            match (match lastM.unpack with
              | some _ => Except.ok []
              | none => computeUnmarshalMappings lastS entryS) with
            | .error e => .error e
            | .ok um =>
              .ok ⟨ctxs, ⟨lastS, lastM.pack, mm, -1⟩, ⟨lastM.unpack, um⟩⟩

/-- `Register`: on success the single compiled entry becomes visible, on
error the registry is returned untouched (the panic in the source). -/
def register (reg : Registry) (p : Proto) (vps : List Proto) :
    Registry × Option RegErr :=
  match registerError reg p vps with
  | .ok e => ((p.typ, e) :: reg, none)
  | .error err => (reg, some err)

/-! ## The external codec (encoding/json), modelled -/

/-- Does a JSON value fit a declared Go field type? -/
def jMatches (t : String) : JValue → Bool
  | .int _ => t = "int"
  | .str _ => t = "string"
  | .bool _ => t = "bool"
  | .opaq t' _ => t = t'

/-- Raw bytes handed to `Unmarshal`: either the literal `null` or a JSON
object given as its ordered key/value pairs. -/
inductive RawData where
  | null
  | obj (kvs : List (String × JValue))

/-- Decode an object into a struct value: start from the zero value, set
each field as its key arrives (so later duplicates win), ignore unknown
keys, fail on a type mismatch — mirroring `json.Unmarshal`. -/
def decodeInto (s : GoStruct) : StructVal → List (String × JValue) → Except String StructVal
  | acc, [] => .ok acc
  | acc, (k, jv) :: rest =>
    match findDirect s.fields k with
    | none => decodeInto s acc rest
    | some (i, f) =>
      if jMatches f.vtype jv then decodeInto s (acc.set i jv) rest
      else .error ("cannot unmarshal value into field " ++ k)

def jsonDecodeStruct (s : GoStruct) (kvs : List (String × JValue)) : Except String StructVal :=
  decodeInto s (zeroVal s) kvs

/-- Encode a struct value as ordered key/value pairs: one entry per direct
field, keyed by field name. -/
def encodeFields (v : StructVal) (i : Nat) : List Field → List (String × JValue)
  | [] => []
  | f :: rest => (f.name, v.getD i (zeroOf f.vtype)) :: encodeFields v (i + 1) rest

def jsonEncodeStruct (s : GoStruct) (v : StructVal) : List (String × JValue) :=
  encodeFields v 0 s.fields

def lbrace : Char := '\x7b'
def rbrace : Char := '\x7d'

def renderJValue : JValue → List Char
  | .int i => (toString i).data
  | .str s => '"' :: s.data ++ ['"']
  | .bool b => (toString b).data
  | .opaq _ n => (toString n).data

def renderItem (kv : String × JValue) : List Char :=
  '"' :: kv.1.data ++ '"' :: ':' :: renderJValue kv.2

def renderItems : List (String × JValue) → List Char
  | [] => []
  | [kv] => renderItem kv
  | kv :: kv2 :: rest => renderItem kv ++ ',' :: renderItems (kv2 :: rest)

/-- `json.Marshal` of a struct value: a JSON object rendered to bytes. -/
def renderKVs (kvs : List (String × JValue)) : List Char :=
  lbrace :: renderItems kvs ++ [rbrace]

/-- Normalize a hook's output back to a struct value of shape `s`: a Go
struct value always carries exactly its type's fields. -/
def padFields (v : StructVal) (i : Nat) : List Field → StructVal
  | [] => []
  | f :: rest => v.getD i (zeroOf f.vtype) :: padFields v (i + 1) rest

def asStruct (s : GoStruct) (v : StructVal) : StructVal := padFields v 0 s.fields

/-! ## Runtime errors and the encoder/decoder -/

/-- Runtime (Marshal/Unmarshal) errors, one constructor per distinct
failure in the source. -/
inductive VErr where
  | unmarshalNil
  | unmarshalNonPtr (t : String)
  | unmarshalNilPtr (t : String)
  | notRegistered (t : String)
  | negativeVersion
  | unsupportedVersion (t : String) (v : Int)
  | codecErr (msg : String)
  | hookErr (msg : String)
deriving DecidableEq, Repr

/-- Decode of `versionContainer`: the last integer `"Version"` entry wins,
a non-integer `"Version"` value is a codec error, absence leaves 0. -/
def versionFold (acc : Int) : List (String × JValue) → Except String Int
  | [] => .ok acc
  | (k, jv) :: rest =>
    if k = "Version" then
      match jv with
      | .int i => versionFold i rest
      | _ => .error "cannot unmarshal value into versionContainer.Version"
    else versionFold acc rest

def decodeVersionField (kvs : List (String × JValue)) : Except String Int :=
  versionFold 0 kvs

/-- `unmarshalVersion` from the source: negative is fatal, zero or absent
defaults to version 1. -/
def unmarshalVersion (kvs : List (String × JValue)) : Except VErr Int :=
  match decodeVersionField kvs with
  | .error m => .error (.codecErr m)
  | .ok v =>
    if v < 0 then .error .negativeVersion
    else if v = 0 then .ok 1
    else .ok v

/-- The version-stamp header `{"Version":N` (without the trailing `,` or
`}`), as `fmt.Fprintf` writes it. -/
def versionHeader (n : Nat) : List Char :=
  lbrace :: "\"Version\":".data ++ (toString n).data

/-- The version-stamping tail of `Marshal`: write the latest version into
the `Version` field when the latest shape has one, otherwise splice a
`"Version"` pair in front of the codec's object body (with the special
case for an empty body). -/
def stampAndRender (e : Entry) (value : StructVal) : List Char :=
  if e.marshal.versionField ≥ 0 then
    renderKVs (jsonEncodeStruct e.marshal.rtype
      (value.set e.marshal.versionField.toNat (.int (e.latest : Int))))
  else
    let data := renderKVs (jsonEncodeStruct e.marshal.rtype value)
    if data = [lbrace, rbrace] then
      versionHeader e.latest ++ [rbrace]
    else
      versionHeader e.latest ++ ',' :: data.drop 1

/-- `Marshal` from the source, on an already-dereferenced value of type
`t`: registry lookup, Pack hook or field copy into a fresh latest-shape
value, then version stamping — directly into a `Version` field, or spliced
in front of the codec's object body. -/
def Marshal (reg : Registry) (t : GoType) (input : StructVal) : Except VErr (List Char) :=
  match lookupReg reg t with
  | none => .error (.notRegistered (typeName t))
  | some e =>
    match (match e.marshal.packFunc with
      | some pk =>
        match pk (zeroVal e.marshal.rtype) input with
        | .ok w => Except.ok (asStruct e.marshal.rtype w)
        | .error msg => Except.error (VErr.hookErr msg)
      | none => Except.ok (copyFields input (zeroVal e.marshal.rtype) e.marshal.mappings)) with
    | .error err => .error err
    | .ok value => .ok (stampAndRender e value)

/-- One step of the upgrade chain: a fresh value of the next shape, the
precomputed field copy, then the Upgrade hook — only if declared — with
(new value, previous value), its error aborting everything. -/
def upgradeStep (ctx : VersionCtx) (cur : StructVal) : Except VErr StructVal :=
  let next := copyFields cur (zeroVal ctx.rtype) ctx.mappings
  match ctx.upgradeFunc with
  | none => .ok next
  | some up =>
    match up next cur with
    | .ok w => .ok w
    | .error m => .error (.hookErr m)

/-- The `for version < entry.latestVersion` loop, fuelled; the context of
version `k+1` sits at index `k`. -/
def upgradeLoop (e : Entry) : Nat → Nat → StructVal → Except VErr StructVal
  | 0, _, cur => .ok cur
  | fuel + 1, version, cur =>
    if h : version < e.versions.length then
      match upgradeStep e.versions[version] cur with
      | .error err => .error err
      | .ok next => upgradeLoop e fuel (version + 1) next
    else .ok cur

/-- The upgrade chain from detected version `k` up to the latest. -/
def runChain (e : Entry) (k : Nat) (cur : StructVal) : Except VErr StructVal :=
  upgradeLoop e e.versions.length k cur

/-- Finalization: Unpack hook with (latest value, live value), or the
latest→live field copy into the caller's existing value. -/
def finalizeUnmarshal (e : Entry) (cur : StructVal) (liveVal : StructVal) :
    Except VErr StructVal :=
  match e.unmarshal.unpackFunc with
  | some up =>
    match up cur liveVal with
    | .ok w => .ok w
    | .error m => .error (.hookErr m)
  | none => .ok (copyFields cur liveVal e.unmarshal.mappings)

/-- The destination argument of `Unmarshal`, after `reflect.ValueOf`:
a nil interface, a non-pointer, a typed nil pointer, or a usable pointer
to a value of type `t` currently holding `val`. -/
inductive Dest where
  | nilInterface
  | nonPtr (t : GoType)
  | nilPtr (t : GoType)
  | ptr (t : GoType) (val : StructVal)

/-- `Unmarshal` from the source.  On success the returned value is the
final contents of the pointed-to live value. -/
def Unmarshal (reg : Registry) (data : RawData) (dest : Dest) : Except VErr StructVal :=
  match dest with
  | .nilInterface => .error .unmarshalNil
  | .nonPtr t => .error (.unmarshalNonPtr (typeName t))
  | .nilPtr t => .error (.unmarshalNilPtr (typeName t))
  | .ptr t val =>
    match lookupReg reg t with
    | none => .error (.notRegistered (typeName t))
    | some e =>
      match data with
      | .null => .ok val
      | .obj kvs =>
        match unmarshalVersion kvs with
        | .error err => .error err
        | .ok v =>
          match e.versions[v.toNat - 1]? with
          | none => .error (.unsupportedVersion (typeName t) v)
          | some ctx =>
            match jsonDecodeStruct ctx.rtype kvs with
            | .error m => .error (.codecErr m)
            | .ok cur =>
              match runChain e v.toNat cur with
              | .error err => .error err
              | .ok latest => finalizeUnmarshal e latest val

/-- The encode entry point as the package is used (readme, examples,
`TestMarshalNilValue`): the live type's `MarshalJSON` delegates to
`vjson.Marshal`, and the outer `encoding/json` layer emits the literal
`null` for a nil pointer before `MarshalJSON` is ever invoked. -/
def jsonMarshalPtr (reg : Registry) (t : GoType) : Option StructVal → Except VErr (List Char)
  | none => .ok "null".data
  | some v => Marshal reg t v

/-! ## Basic lemmas -/

theorem lookupReg_cons_self (reg : Registry) (t : GoType) (e : Entry) :
    lookupReg ((t, e) :: reg) t = some e := by
  simp [lookupReg]

theorem lookupReg_cons_ne (reg : Registry) (t t' : GoType) (e : Entry)
    (h : t' ≠ t) : lookupReg ((t, e) :: reg) t' = lookupReg reg t' := by
  simp [lookupReg, h]

/-! ## C7: null input -/

/-- Counterexample to C7: the `null` check in `Unmarshal` sits after the
registry lookup, so an unregistered destination type fails with a
NotRegistered error even when the raw bytes are exactly `null` — the claim
that the null check precedes Entry resolution is false. -/
theorem C7_null_after_registry_counterexample :
    Unmarshal [] RawData.null (Dest.ptr (GoType.strukt ⟨"S", [], []⟩) []) =
      Except.error (VErr.notRegistered "S") := by
  rfl

/-- C7 (amended): for a destination pointer whose type is registered, raw
input exactly equal to the literal `null` makes `Unmarshal` succeed and
leave the pointed-to live value completely unchanged; however the null
check follows Entry resolution, so an unregistered type still fails with a
NotRegistered error. -/
theorem C7_null_no_mutation (reg : Registry) (t : GoType) (val : StructVal)
    (e : Entry) (he : lookupReg reg t = some e) :
    Unmarshal reg RawData.null (Dest.ptr t val) = Except.ok val := by
  simp [Unmarshal, he]

theorem C7_null_no_mutation_witness :
    lookupReg [(GoType.strukt ⟨"S", [], []⟩, (⟨[], ⟨⟨"S1", [], []⟩, none, [], -1⟩, ⟨none, []⟩⟩ : Entry))]
        (GoType.strukt ⟨"S", [], []⟩) = some ⟨[], ⟨⟨"S1", [], []⟩, none, [], -1⟩, ⟨none, []⟩⟩ ∧
    Unmarshal [(GoType.strukt ⟨"S", [], []⟩, (⟨[], ⟨⟨"S1", [], []⟩, none, [], -1⟩, ⟨none, []⟩⟩ : Entry))]
        RawData.null (Dest.ptr (GoType.strukt ⟨"S", [], []⟩) [JValue.int 5]) =
      Except.ok [JValue.int 5] :=
  ⟨rfl, C7_null_no_mutation _ _ _ _ rfl⟩

/-! ## C8: nil live value marshals to null -/

/-- C8: a live value that is a nil pointer is encoded as the literal bytes
`null`, bypassing registry lookup, pack/field-mapping conversion, version
stamping and codec delegation: the equation holds for every registry,
including the empty one, and the non-nil case is exactly `Marshal`.  (The
short-circuit lives in the outer `encoding/json` layer, which never invokes
the type's `MarshalJSON` for a nil pointer — see `TestMarshalNilValue`.) -/
theorem C8_marshal_nil_is_null (reg : Registry) (t : GoType) :
    jsonMarshalPtr reg t none = Except.ok "null".data ∧
    ∀ v : StructVal, jsonMarshalPtr reg t (some v) = Marshal reg t v := by
  exact ⟨rfl, fun _ => rfl⟩

/-! ## C3: version detection and error taxonomy -/

/-- Drop every `"Version"` entry from a wire object. -/
def stripVersion (kvs : List (String × JValue)) : List (String × JValue) :=
  kvs.filter (fun kv => kv.1 != "Version")

theorem versionFold_no_version (a : Int) (kvs : List (String × JValue))
    (h : ∀ kv ∈ kvs, kv.1 ≠ "Version") : versionFold a kvs = Except.ok a := by
  induction kvs with
  | nil => rfl
  | cons kv rest ih =>
    have hk : kv.1 ≠ "Version" := h kv (List.mem_cons_self kv rest)
    simp only [versionFold]
    rw [if_neg hk]
    exact ih (fun x hx => h x (List.mem_cons_of_mem kv hx))

theorem stripVersion_no_version (kvs : List (String × JValue)) :
    ∀ kv ∈ stripVersion kvs, kv.1 ≠ "Version" := by
  intro kv hkv
  have := List.of_mem_filter hkv
  simpa using this

theorem decodeInto_ignores_version (s : GoStruct)
    (hs : findDirect s.fields "Version" = none) (acc : StructVal)
    (jv : JValue) (kvs : List (String × JValue)) :
    decodeInto s acc (("Version", jv) :: kvs) = decodeInto s acc kvs := by
  simp [decodeInto, hs]

theorem decodeInto_stripVersion (s : GoStruct)
    (hs : findDirect s.fields "Version" = none) (kvs : List (String × JValue)) :
    ∀ acc : StructVal, decodeInto s acc (stripVersion kvs) = decodeInto s acc kvs := by
  induction kvs with
  | nil => intro acc; rfl
  | cons kv rest ih =>
    intro acc
    by_cases hk : kv.1 = "Version"
    · have hstrip : stripVersion (kv :: rest) = stripVersion rest := by
        simp [stripVersion, List.filter_cons, hk]
      rw [hstrip, ih acc]
      obtain ⟨k, jv⟩ := kv
      simp only at hk
      subst hk
      rw [decodeInto_ignores_version s hs acc jv rest]
    · have hstrip : stripVersion (kv :: rest) = kv :: stripVersion rest := by
        simp [stripVersion, List.filter_cons, hk]
      rw [hstrip]
      obtain ⟨k, jv⟩ := kv
      simp only at hk
      simp only [decodeInto]
      cases hfd : findDirect s.fields k with
      | none => exact ih acc
      | some p =>
        obtain ⟨i, f⟩ := p
        by_cases hm : jMatches f.vtype jv
        · simp [hm, ih]
        · simp [hm]

/-- C3 (amended): for a registered live type, a negative detected
`"Version"` yields the negative-version error and a version above the
latest yields the unsupported-version error; an unregistered type fails
with the not-registered error on both `Marshal` and `Unmarshal`; an absent
or zero `"Version"` value is treated as version 1.  Decoding an absent or
zero version is identical to decoding the same object with an explicit
`"Version":1` provided the version-1 shape does not itself capture the
`"Version"` key as a direct field (the counterexample shows the identity
fails otherwise). -/
theorem C3_version_rules (reg : Registry) (t : GoType) (val : StructVal)
    (e : Entry) (he : lookupReg reg t = some e) :
    (∀ (kvs : List (String × JValue)) (i : Int), decodeVersionField kvs = .ok i → i < 0 →
        Unmarshal reg (.obj kvs) (.ptr t val) = .error .negativeVersion) ∧
    (∀ kvs : List (String × JValue), decodeVersionField kvs = .ok 0 →
        unmarshalVersion kvs = .ok 1) ∧
    (∀ (kvs : List (String × JValue)) (ctx : VersionCtx),
        decodeVersionField kvs = .ok 0 → e.versions[0]? = some ctx →
        findDirect ctx.rtype.fields "Version" = none →
        Unmarshal reg (.obj kvs) (.ptr t val) =
          Unmarshal reg (.obj (("Version", .int 1) :: stripVersion kvs)) (.ptr t val)) ∧
    (∀ (kvs : List (String × JValue)) (i : Int), decodeVersionField kvs = .ok i →
        (e.versions.length : Int) < i →
        Unmarshal reg (.obj kvs) (.ptr t val) = .error (.unsupportedVersion (typeName t) i)) ∧
    (∀ (t' : GoType) (val' input : StructVal) (data : RawData), lookupReg reg t' = none →
        Unmarshal reg data (.ptr t' val') = .error (.notRegistered (typeName t')) ∧
        Marshal reg t' input = .error (.notRegistered (typeName t'))) := by
  refine ⟨?_, ?_, ?_, ?_, ?_⟩
  · intro kvs i hdv hi
    simp [Unmarshal, he, unmarshalVersion, hdv, hi]
  · intro kvs hdv
    simp [unmarshalVersion, hdv]
  · intro kvs ctx hdv hctx hnov
    have hv1 : unmarshalVersion kvs = .ok 1 := by simp [unmarshalVersion, hdv]
    have hdv' : decodeVersionField (("Version", JValue.int 1) :: stripVersion kvs) =
        Except.ok 1 := by
      simp only [decodeVersionField, versionFold, if_pos rfl]
      exact versionFold_no_version 1 _ (stripVersion_no_version kvs)
    have hv1' : unmarshalVersion (("Version", JValue.int 1) :: stripVersion kvs) =
        .ok 1 := by simp [unmarshalVersion, hdv']
    have hdec : jsonDecodeStruct ctx.rtype (("Version", JValue.int 1) :: stripVersion kvs) =
        jsonDecodeStruct ctx.rtype kvs := by
      unfold jsonDecodeStruct
      rw [decodeInto_ignores_version ctx.rtype hnov _ _ _,
        decodeInto_stripVersion ctx.rtype hnov kvs]
    have h0 : (1 : Int).toNat - 1 = 0 := rfl
    simp only [Unmarshal, he, hv1, hv1', h0, hctx]
    simp [hdec]
  · intro kvs i hdv hgt
    have h1 : ¬ i < 0 := by omega
    have h2 : ¬ i = 0 := by omega
    have hv : unmarshalVersion kvs = .ok i := by simp [unmarshalVersion, hdv, h1, h2]
    have hnone : e.versions[i.toNat - 1]? = none := by
      rw [List.getElem?_eq_none_iff]
      omega
    simp [Unmarshal, he, hv, hnone]
  · intro t' val' input data hnone
    constructor
    · simp [Unmarshal, hnone]
    · simp [Marshal, hnone]

def leakLive : GoStruct := ⟨"Leak", [⟨"X", "int", none⟩], []⟩
def leakV1 : GoStruct := ⟨"LeakV1", [⟨"Version", "int", none⟩], []⟩
def leakV2 : GoStruct := ⟨"LeakV2", [⟨"X", "int", some "Version"⟩], []⟩
def leakReg : Registry :=
  (register [] ⟨.strukt leakLive, noMethods⟩
    [⟨.strukt leakV1, noMethods⟩, ⟨.strukt leakV2, noMethods⟩]).1

/-- Counterexample to C3: an absent `"Version"` does NOT decode identically
to an explicit `"Version":1`.  With V1 declaring a `Version int` field and
V2 renaming it into `X` via a `vjson:"Version"` tag, the version container
value reaches the live value: the empty wire object gives `X = 0` while
`\x7b"Version":1\x7d` gives `X = 1`. -/
theorem C3_absent_vs_explicit_counterexample :
    (register [] ⟨.strukt leakLive, noMethods⟩
      [⟨.strukt leakV1, noMethods⟩, ⟨.strukt leakV2, noMethods⟩]).2 = none ∧
    Unmarshal leakReg (.obj []) (.ptr (.strukt leakLive) [JValue.int 7]) =
      .ok [JValue.int 0] ∧
    Unmarshal leakReg (.obj [("Version", JValue.int 1)])
      (.ptr (.strukt leakLive) [JValue.int 7]) = .ok [JValue.int 1] := by
  refine ⟨rfl, rfl, rfl⟩

def w3S : GoStruct := ⟨"W3", [⟨"A", "int", none⟩], []⟩
def w3V1 : GoStruct := ⟨"W3V1", [⟨"A", "int", none⟩], []⟩
def w3Entry : Entry := ⟨[⟨w3V1, [], none⟩], ⟨w3V1, none, [⟨0, 0⟩], -1⟩, ⟨none, [⟨0, 0⟩]⟩⟩
def w3Reg : Registry := [(GoType.strukt w3S, w3Entry)]

/-- Witness for C3: the rules evaluated on a concrete registration
(negative, too-large, absent-versus-explicit-1 versions; an unregistered
type on Marshal). -/
theorem C3_version_rules_witness :
    Unmarshal w3Reg (.obj [("Version", JValue.int (-2))])
      (.ptr (GoType.strukt w3S) [JValue.int 0]) = Except.error VErr.negativeVersion ∧
    Unmarshal w3Reg (.obj [("Version", JValue.int 9)])
      (.ptr (GoType.strukt w3S) [JValue.int 0]) =
      Except.error (VErr.unsupportedVersion "W3" 9) ∧
    Unmarshal w3Reg (.obj [("A", JValue.int 4)])
      (.ptr (GoType.strukt w3S) [JValue.int 0]) =
      Unmarshal w3Reg (.obj [("Version", JValue.int 1), ("A", JValue.int 4)])
        (.ptr (GoType.strukt w3S) [JValue.int 0]) ∧
    Marshal w3Reg (GoType.named "int") [] = Except.error (VErr.notRegistered "int") := by
  have he : lookupReg w3Reg (GoType.strukt w3S) = some w3Entry := rfl
  refine ⟨?_, ?_, ?_, ?_⟩
  · exact (C3_version_rules w3Reg (GoType.strukt w3S) [JValue.int 0] w3Entry he).1
      _ _ rfl (by decide)
  · exact (C3_version_rules w3Reg (GoType.strukt w3S) [JValue.int 0] w3Entry he).2.2.2.1
      _ _ rfl (by decide)
  · have h := (C3_version_rules w3Reg (GoType.strukt w3S) [JValue.int 0] w3Entry he).2.2.1
      [("A", JValue.int 4)] ⟨w3V1, [], none⟩ rfl rfl rfl
    simpa [stripVersion] using h
  · exact ((C3_version_rules w3Reg (GoType.strukt w3S) [JValue.int 0] w3Entry he).2.2.2.2
      (GoType.named "int") [] [] RawData.null rfl).2

/-! ## C4: the upgrade chain -/

theorem upgradeLoop_past (e : Entry) :
    ∀ (fuel k : Nat) (cur : StructVal), e.versions.length ≤ k →
      upgradeLoop e fuel k cur = .ok cur := by
  intro fuel
  induction fuel with
  | zero => intro k cur _; rfl
  | succ f ih =>
    intro k cur hk
    have h : ¬ k < e.versions.length := by omega
    simp [upgradeLoop, h]

theorem upgradeLoop_congr (e : Entry) :
    ∀ (f1 f2 k : Nat) (cur : StructVal),
      e.versions.length - k ≤ f1 → e.versions.length - k ≤ f2 →
      upgradeLoop e f1 k cur = upgradeLoop e f2 k cur := by
  intro f1
  induction f1 with
  | zero =>
    intro f2 k cur h1 _
    have hk : e.versions.length ≤ k := by omega
    rw [upgradeLoop_past e 0 k cur hk, upgradeLoop_past e f2 k cur hk]
  | succ f ih =>
    intro f2 k cur h1 h2
    by_cases hk : k < e.versions.length
    · obtain ⟨f2', rfl⟩ : ∃ f2', f2 = f2' + 1 := by
        cases f2 with
        | zero => omega
        | succ m => exact ⟨m, rfl⟩
      simp only [upgradeLoop, dif_pos hk]
      cases hs : upgradeStep e.versions[k] cur with
      | error err => rfl
      | ok next => exact ih f2' (k + 1) next (by omega) (by omega)
    · have hk' : e.versions.length ≤ k := by omega
      rw [upgradeLoop_past e (f + 1) k cur hk', upgradeLoop_past e f2 k cur hk']

/-- C4: the decoder's upgrade chain.  While the current version is below the
latest, one step runs at a time: a fresh value of the next shape is filled
by the precomputed field copy, then — exactly when that shape declares an
Upgrade hook — the hook runs on (new value, previous value) after the copy,
its error becoming the step's error; a step error aborts the whole
`Unmarshal`.  When the detected version already equals the latest, the
chain performs zero steps and `Unmarshal` is exactly decode followed by the
single finalization (Unpack or field-mapping) pass. -/
theorem C4_upgrade_chain :
    (∀ (e : Entry) (k : Nat) (cur next : StructVal) (hk : k < e.versions.length),
        upgradeStep e.versions[k] cur = .ok next →
        runChain e k cur = runChain e (k + 1) next) ∧
    (∀ (e : Entry) (k : Nat) (cur : StructVal) (err : VErr) (hk : k < e.versions.length),
        upgradeStep e.versions[k] cur = .error err →
        runChain e k cur = .error err) ∧
    (∀ (ctx : VersionCtx) (cur : StructVal), ctx.upgradeFunc = none →
        upgradeStep ctx cur = .ok (copyFields cur (zeroVal ctx.rtype) ctx.mappings)) ∧
    (∀ (ctx : VersionCtx) (cur : StructVal) (up : Hook), ctx.upgradeFunc = some up →
        (∀ w, up (copyFields cur (zeroVal ctx.rtype) ctx.mappings) cur = .ok w →
            upgradeStep ctx cur = .ok w) ∧
        (∀ msg, up (copyFields cur (zeroVal ctx.rtype) ctx.mappings) cur = .error msg →
            upgradeStep ctx cur = .error (.hookErr msg))) ∧
    (∀ (e : Entry) (k : Nat) (cur : StructVal), e.versions.length ≤ k →
        runChain e k cur = .ok cur) ∧
    (∀ (reg : Registry) (t : GoType) (val : StructVal) (e : Entry)
        (kvs : List (String × JValue)) (ctx : VersionCtx) (cur : StructVal),
        lookupReg reg t = some e →
        decodeVersionField kvs = .ok (e.versions.length : Int) →
        1 ≤ e.versions.length →
        e.versions[e.versions.length - 1]? = some ctx →
        jsonDecodeStruct ctx.rtype kvs = .ok cur →
        Unmarshal reg (.obj kvs) (.ptr t val) = finalizeUnmarshal e cur val) ∧
    (∀ (reg : Registry) (t : GoType) (val : StructVal) (e : Entry)
        (kvs : List (String × JValue)) (v : Int) (ctx : VersionCtx)
        (cur : StructVal) (err : VErr),
        lookupReg reg t = some e →
        unmarshalVersion kvs = .ok v →
        e.versions[v.toNat - 1]? = some ctx →
        jsonDecodeStruct ctx.rtype kvs = .ok cur →
        runChain e v.toNat cur = .error err →
        Unmarshal reg (.obj kvs) (.ptr t val) = .error err) := by
  refine ⟨?_, ?_, ?_, ?_, ?_, ?_, ?_⟩
  · intro e k cur next hk hstep
    unfold runChain
    obtain ⟨m, hm⟩ : ∃ m, e.versions.length = m + 1 := ⟨e.versions.length - 1, by omega⟩
    conv_lhs => rw [hm]
    simp only [upgradeLoop, dif_pos hk, hstep]
    exact upgradeLoop_congr e m e.versions.length (k + 1) next (by omega) (by omega)
  · intro e k cur err hk hstep
    unfold runChain
    obtain ⟨m, hm⟩ : ∃ m, e.versions.length = m + 1 := ⟨e.versions.length - 1, by omega⟩
    conv_lhs => rw [hm]
    simp only [upgradeLoop, dif_pos hk, hstep]
  · intro ctx cur h
    simp [upgradeStep, h]
  · intro ctx cur up h
    constructor
    · intro w hw
      simp [upgradeStep, h, hw]
    · intro msg hmsg
      simp [upgradeStep, h, hmsg]
  · intro e k cur hk
    exact upgradeLoop_past e e.versions.length k cur hk
  · intro reg t val e kvs ctx cur he hdv hlen hctx hcur
    have h1 : ¬ ((e.versions.length : Int) < 0) := by omega
    have h2 : ¬ ((e.versions.length : Int) = 0) := by omega
    have hv : unmarshalVersion kvs = .ok (e.versions.length : Int) := by
      simp [unmarshalVersion, hdv, h1, h2]
    have ht : (e.versions.length : Int).toNat = e.versions.length := by omega
    have hchain : runChain e e.versions.length cur = .ok cur :=
      upgradeLoop_past e e.versions.length e.versions.length cur (le_refl _)
    simp [Unmarshal, he, hv, ht, hctx, hcur, hchain]
  · intro reg t val e kvs v ctx cur err he hv hctx hcur hchain
    simp [Unmarshal, he, hv, hctx, hcur, hchain]

def w4V1 : GoStruct := ⟨"W4V1", [⟨"A", "int", none⟩], []⟩
def w4V2 : GoStruct := ⟨"W4V2", [⟨"A", "int", none⟩], []⟩
def w4Entry : Entry :=
  ⟨[⟨w4V1, [], none⟩,
    ⟨w4V2, [⟨0, 0⟩], some (fun _ _ => .error "boom")⟩],
   ⟨w4V2, none, [⟨0, 0⟩], -1⟩, ⟨none, [⟨0, 0⟩]⟩⟩
def w4S : GoStruct := ⟨"W4", [⟨"A", "int", none⟩], []⟩
def w4Reg : Registry := [(GoType.strukt w4S, w4Entry)]

/-- Witness for C4: on a concrete two-version entry whose version-2 shape
declares a failing Upgrade hook, data already at the latest version decodes
with zero chain steps, while version-1 data aborts with the hook's error. -/
theorem C4_upgrade_chain_witness :
    Unmarshal w4Reg (.obj [("Version", JValue.int 2), ("A", JValue.int 5)])
      (.ptr (GoType.strukt w4S) [JValue.int 0]) =
      finalizeUnmarshal w4Entry [JValue.int 5] [JValue.int 0] ∧
    runChain w4Entry 1 [JValue.int 5] = .error (.hookErr "boom") ∧
    Unmarshal w4Reg (.obj [("Version", JValue.int 1), ("A", JValue.int 5)])
      (.ptr (GoType.strukt w4S) [JValue.int 0]) = .error (.hookErr "boom") := by
  refine ⟨?_, ?_, ?_⟩
  · exact C4_upgrade_chain.2.2.2.2.2.1 w4Reg (GoType.strukt w4S) [JValue.int 0]
      w4Entry _ ⟨w4V2, [⟨0, 0⟩], some (fun _ _ => .error "boom")⟩ [JValue.int 5]
      rfl rfl (by decide) rfl rfl
  · exact C4_upgrade_chain.2.1 w4Entry 1 [JValue.int 5] (.hookErr "boom")
      (by decide) rfl
  · exact C4_upgrade_chain.2.2.2.2.2.2 w4Reg (GoType.strukt w4S) [JValue.int 0]
      w4Entry _ 1 ⟨w4V1, [], none⟩ [JValue.int 5] (.hookErr "boom")
      rfl rfl rfl rfl
      (C4_upgrade_chain.2.1 w4Entry 1 [JValue.int 5] (.hookErr "boom") (by decide) rfl)

/-! ## Encoding lemmas -/

theorem findDirectAux_some (n : String) :
    ∀ (fs : List Field) (i j : Nat) (f : Field),
      findDirectAux n i fs = some (j, f) →
      ∃ k, j = i + k ∧ fs.get? k = some f ∧ f.name = n := by
  intro fs
  induction fs with
  | nil => intro i j f h; cases h
  | cons g rest ih =>
    intro i j f h
    simp only [findDirectAux] at h
    by_cases hg : g.name = n
    · rw [if_pos hg] at h
      obtain ⟨rfl, rfl⟩ : j = i ∧ g = f := by
        cases h; exact ⟨rfl, rfl⟩
      exact ⟨0, by omega, rfl, hg⟩
    · rw [if_neg hg] at h
      obtain ⟨k, hk, hget, hname⟩ := ih (i + 1) j f h
      exact ⟨k + 1, by omega, by simpa using hget, hname⟩

theorem findDirectAux_none (n : String) :
    ∀ (fs : List Field) (i : Nat), findDirectAux n i fs = none →
      ∀ f ∈ fs, f.name ≠ n := by
  intro fs
  induction fs with
  | nil => intro i _ f hf; cases hf
  | cons g rest ih =>
    intro i h f hf
    simp only [findDirectAux] at h
    by_cases hg : g.name = n
    · rw [if_pos hg] at h; cases h
    · rw [if_neg hg] at h
      rcases List.mem_cons.mp hf with rfl | hmem
      · exact hg
      · exact ih (i + 1) h f hmem

theorem findDirect_some (fs : List Field) (n : String) (j : Nat) (f : Field)
    (h : findDirect fs n = some (j, f)) :
    fs.get? j = some f ∧ f.name = n := by
  obtain ⟨k, hk, hget, hname⟩ := findDirectAux_some n fs 0 j f h
  exact ⟨by simpa [hk] using hget, hname⟩

theorem findDirect_none (fs : List Field) (n : String)
    (h : findDirect fs n = none) : ∀ f ∈ fs, f.name ≠ n :=
  findDirectAux_none n fs 0 h

theorem copyFields_length (src : StructVal) (ms : List Mapping) :
    ∀ dst : StructVal, (copyFields src dst ms).length = dst.length := by
  induction ms with
  | nil => intro dst; rfl
  | cons m rest ih =>
    intro dst
    simp only [copyFields, List.foldl_cons] at *
    rw [ih]
    exact List.length_set ..

theorem padFields_length (v : StructVal) :
    ∀ (fs : List Field) (i : Nat), (padFields v i fs).length = fs.length := by
  intro fs
  induction fs with
  | nil => intro i; rfl
  | cons f rest ih => intro i; simp [padFields, ih]

theorem encodeFields_get? (v : StructVal) :
    ∀ (fs : List Field) (i j : Nat) (f : Field), fs.get? j = some f →
      (encodeFields v i fs).get? j = some (f.name, v.getD (i + j) (zeroOf f.vtype)) := by
  intro fs
  induction fs with
  | nil => intro i j f h; cases h
  | cons g rest ih =>
    intro i j f h
    cases j with
    | zero =>
      obtain rfl : g = f := by simpa using h
      simp [encodeFields]
    | succ j' =>
      have h' : rest.get? j' = some f := by simpa using h
      have := ih (i + 1) j' f h'
      simpa [encodeFields, Nat.add_assoc, Nat.add_comm 1 j'] using this

theorem encodeFields_countP_version (v : StructVal) :
    ∀ (fs : List Field) (i : Nat),
      (encodeFields v i fs).countP (fun kv => kv.1 == "Version") =
        fs.countP (fun f => f.name == "Version") := by
  intro fs
  induction fs with
  | nil => intro i; rfl
  | cons g rest ih =>
    intro i
    by_cases hg : g.name = "Version"
    · simp [encodeFields, List.countP_cons, hg, ih]
    · simp [encodeFields, List.countP_cons, hg, ih]

theorem countP_version_zero (fs : List Field)
    (h : ∀ f ∈ fs, f.name ≠ "Version") :
    fs.countP (fun f => f.name == "Version") = 0 := by
  rw [List.countP_eq_zero]
  intro f hf
  simpa using h f hf

theorem countP_version_one (fs : List Field) (j : Nat) (f : Field)
    (hnd : (fs.map Field.name).Nodup) (hj : fs.get? j = some f)
    (hf : f.name = "Version") :
    fs.countP (fun g => g.name == "Version") = 1 := by
  have hmem : "Version" ∈ fs.map Field.name := by
    rw [← hf]
    exact List.mem_map_of_mem Field.name (List.get?_mem hj)
  have hcount : (fs.map Field.name).count "Version" = 1 :=
    List.count_eq_one_of_mem hnd hmem
  calc fs.countP (fun g => g.name == "Version")
      = (fs.map Field.name).countP (fun s => s == "Version") := by
        rw [List.countP_map]; rfl
    _ = 1 := hcount

theorem getD_set_self (l : StructVal) (i : Nat) (a d : JValue)
    (h : i < l.length) : (l.set i a).getD i d = a := by
  rw [List.getD_eq_getElem?_getD, List.getElem?_set_self]
  · rfl
  · exact h

theorem renderKVs_empty_iff (kvs : List (String × JValue)) :
    renderKVs kvs = [lbrace, rbrace] ↔ kvs = [] := by
  constructor
  · intro h
    cases kvs with
    | nil => rfl
    | cons kv rest =>
      exfalso
      have hitem : 3 ≤ (renderItem kv).length := by
        simp only [renderItem, List.length_cons, List.length_append]
        omega
      have hitems : 3 ≤ (renderItems (kv :: rest)).length := by
        cases rest with
        | nil => simpa [renderItems] using hitem
        | cons kv2 r2 =>
          simp only [renderItems, List.length_append, List.length_cons]
          omega
      have hlen : (renderKVs (kv :: rest)).length = 2 := by rw [h]; rfl
      simp only [renderKVs, List.length_cons, List.length_append,
        List.length_nil] at hlen
      omega
  · intro h; rw [h]; rfl

theorem header_eq_renderItem (n : Nat) :
    "\"Version\":".data ++ (toString n).data =
      renderItem ("Version", JValue.int (n : Int)) := by
  have hs : ("\"Version\":".data : List Char) =
      '"' :: "Version".data ++ ['"', ':'] := by decide
  have hn : (toString (n : Int)).data = (toString n).data := rfl
  simp [renderItem, renderJValue, hs, hn]

theorem splice_empty (n : Nat) :
    versionHeader n ++ [rbrace] = renderKVs [("Version", JValue.int (n : Int))] := by
  simp [versionHeader, renderKVs, renderItems, header_eq_renderItem n]

theorem splice_cons (n : Nat) (kv : String × JValue) (kvs : List (String × JValue)) :
    versionHeader n ++ ',' :: (renderKVs (kv :: kvs)).drop 1 =
      renderKVs (("Version", JValue.int (n : Int)) :: kv :: kvs) := by
  simp [versionHeader, renderKVs, renderItems, ← header_eq_renderItem n]

/-! ## Registration invariants used by the encoder claims -/

/-- Full inversion of a successful `registerError`: every validation
passed and the entry's components are exactly the compiled data. -/
theorem registerError_ok_inv (reg : Registry) (p : Proto) (vps : List Proto)
    (e : Entry) (h : registerError reg p vps = .ok e) :
    ∃ (entryS : GoStruct) (ctxs : List VersionCtx) (lastS : GoStruct)
      (lastM : Methods) (mm um : List Mapping),
      p.typ = .strukt entryS ∧
      lookupReg reg p.typ = none ∧
      vps ≠ [] ∧
      fieldByName entryS "Version" = none ∧
      buildVersionList [p.typ] none 1 vps = .ok (ctxs, lastS, lastM) ∧
      (lastM.pack.isSome ∧ mm = [] ∨
        lastM.pack = none ∧ computeMarshalMappings entryS lastS = .ok mm) ∧
      (lastM.unpack.isSome ∧ um = [] ∨
        lastM.unpack = none ∧ computeUnmarshalMappings lastS entryS = .ok um) ∧
      e.versions = ctxs ∧ e.marshal.rtype = lastS ∧
      e.marshal.packFunc = lastM.pack ∧ e.marshal.mappings = mm ∧
      e.unmarshal.unpackFunc = lastM.unpack ∧ e.unmarshal.mappings = um ∧
      ((e.marshal.versionField = -1 ∧ fieldByName lastS "Version" = none) ∨
       (∃ ff : FoundField, fieldByName lastS "Version" = some ff ∧
          ff.indexLen = 1 ∧ ff.vtype = "int" ∧
          e.marshal.versionField = (ff.index0 : Int))) := by
  obtain ⟨pt, pm⟩ := p
  cases pt with
  | named n => cases h
  | strukt entryS =>
    refine ⟨entryS, ?_⟩
    simp only [registerError] at h
    cases hl : lookupReg reg (GoType.strukt entryS) with
    | some x => simp [hl] at h
    | none =>
      simp only [hl] at h
      cases vps with
      | nil => simp at h
      | cons vp0 rest =>
        simp only at h
        cases hres : fieldByName entryS "Version" with
        | some x => simp [hres] at h
        | none =>
          simp only [hres] at h
          cases hb : buildVersionList [GoType.strukt entryS] none 1 (vp0 :: rest) with
          | error er => simp [hb] at h
          | ok trip =>
            obtain ⟨ctxs, lastS, lastM⟩ := trip
            simp only [hb] at h
            refine ⟨ctxs, lastS, lastM, ?_⟩
            cases hff : fieldByName lastS "Version" with
            | some ff =>
              simp only [hff] at h
              by_cases hlen : ff.indexLen ≠ 1
              · rw [if_pos hlen] at h; cases h
              · rw [if_neg hlen] at h
                by_cases hint : ff.vtype ≠ "int"
                · rw [if_pos hint] at h; cases h
                · rw [if_neg hint] at h
                  cases hpk : lastM.pack with
                  | some pk =>
                    simp only [hpk] at h
                    cases hup : lastM.unpack with
                    | some up =>
                      simp only [hup] at h
                      cases h
                      refine ⟨[], [], rfl, rfl, by simp, rfl, rfl,
                        Or.inl ⟨by simp [hpk], rfl⟩, Or.inl ⟨by simp [hup], rfl⟩,
                        rfl, rfl, by simp [hpk], rfl, by simp [hup], rfl, ?_⟩
                      exact Or.inr ⟨ff, rfl, by omega, by simpa using hint, rfl⟩
                    | none =>
                      simp only [hup] at h
                      cases hum : computeUnmarshalMappings lastS entryS with
                      | error er => simp [hum] at h
                      | ok um =>
                        simp only [hum] at h
                        cases h
                        refine ⟨[], um, rfl, rfl, by simp, rfl, rfl,
                          Or.inl ⟨by simp [hpk], rfl⟩, Or.inr ⟨rfl, rfl⟩,
                          rfl, rfl, by simp [hpk], rfl, by simp [hup], rfl, ?_⟩
                        exact Or.inr ⟨ff, rfl, by omega, by simpa using hint, rfl⟩
                  | none =>
                    simp only [hpk] at h
                    cases hmm : computeMarshalMappings entryS lastS with
                    | error er => simp [hmm] at h
                    | ok mm =>
                      simp only [hmm] at h
                      cases hup : lastM.unpack with
                      | some up =>
                        simp only [hup] at h
                        cases h
                        refine ⟨mm, [], rfl, rfl, by simp, rfl, rfl,
                          Or.inr ⟨rfl, rfl⟩, Or.inl ⟨by simp [hup], rfl⟩,
                          rfl, rfl, by simp [hpk], rfl, by simp [hup], rfl, ?_⟩
                        exact Or.inr ⟨ff, rfl, by omega, by simpa using hint, rfl⟩
                      | none =>
                        simp only [hup] at h
                        cases hum : computeUnmarshalMappings lastS entryS with
                        | error er => simp [hum] at h
                        | ok um =>
                          simp only [hum] at h
                          cases h
                          refine ⟨mm, um, rfl, rfl, by simp, rfl, rfl,
                            Or.inr ⟨rfl, rfl⟩, Or.inr ⟨rfl, rfl⟩,
                            rfl, rfl, by simp [hpk], rfl, by simp [hup], rfl, ?_⟩
                          exact Or.inr ⟨ff, rfl, by omega, by simpa using hint, rfl⟩
            | none =>
              simp only [hff] at h
              cases hpk : lastM.pack with
              | some pk =>
                simp only [hpk] at h
                cases hup : lastM.unpack with
                | some up =>
                  simp only [hup] at h
                  cases h
                  exact ⟨[], [], rfl, rfl, by simp, rfl, rfl,
                    Or.inl ⟨by simp [hpk], rfl⟩, Or.inl ⟨by simp [hup], rfl⟩,
                    rfl, rfl, by simp [hpk], rfl, by simp [hup], rfl,
                    Or.inl ⟨rfl, rfl⟩⟩
                | none =>
                  simp only [hup] at h
                  cases hum : computeUnmarshalMappings lastS entryS with
                  | error er => simp [hum] at h
                  | ok um =>
                    simp only [hum] at h
                    cases h
                    exact ⟨[], um, rfl, rfl, by simp, rfl, rfl,
                      Or.inl ⟨by simp [hpk], rfl⟩, Or.inr ⟨rfl, rfl⟩,
                      rfl, rfl, by simp [hpk], rfl, by simp [hup], rfl,
                      Or.inl ⟨rfl, rfl⟩⟩
              | none =>
                simp only [hpk] at h
                cases hmm : computeMarshalMappings entryS lastS with
                | error er => simp [hmm] at h
                | ok mm =>
                  simp only [hmm] at h
                  cases hup : lastM.unpack with
                  | some up =>
                    simp only [hup] at h
                    cases h
                    exact ⟨mm, [], rfl, rfl, by simp, rfl, rfl,
                      Or.inr ⟨rfl, rfl⟩, Or.inl ⟨by simp [hup], rfl⟩,
                      rfl, rfl, by simp [hpk], rfl, by simp [hup], rfl,
                      Or.inl ⟨rfl, rfl⟩⟩
                  | none =>
                    simp only [hup] at h
                    cases hum : computeUnmarshalMappings lastS entryS with
                    | error er => simp [hum] at h
                    | ok um =>
                      simp only [hum] at h
                      cases h
                      exact ⟨mm, um, rfl, rfl, by simp, rfl, rfl,
                        Or.inr ⟨rfl, rfl⟩, Or.inr ⟨rfl, rfl⟩,
                        rfl, rfl, by simp [hpk], rfl, by simp [hup], rfl,
                        Or.inl ⟨rfl, rfl⟩⟩

/-! ## C1 and C2: version tagging of Marshal output -/

theorem fieldByName_direct (s : GoStruct) (n : String) (ff : FoundField)
    (h : fieldByName s n = some ff) (h1 : ff.indexLen = 1) :
    ∃ f : Field, findDirect s.fields n = some (ff.index0, f) ∧
      f.name = ff.name ∧ f.vtype = ff.vtype := by
  unfold fieldByName at h
  cases hfd : findDirect s.fields n with
  | some jf =>
    obtain ⟨i, f⟩ := jf
    rw [hfd] at h
    injection h with h
    subst h
    exact ⟨f, rfl, rfl, rfl⟩
  | none =>
    rw [hfd] at h
    cases hp : s.promoted.find? (fun q => q.name = n) with
    | some pr =>
      rw [hp] at h
      injection h with h
      subst h
      simp at h1
    | none => rw [hp] at h; cases h

theorem fieldByName_none_direct (s : GoStruct) (n : String)
    (h : fieldByName s n = none) : findDirect s.fields n = none := by
  unfold fieldByName at h
  cases hfd : findDirect s.fields n with
  | some jf => obtain ⟨i, f⟩ := jf; rw [hfd] at h; cases h
  | none => rfl

theorem stampAndRender_tagged (e : Entry) (value : StructVal)
    (hvlen : value.length = e.marshal.rtype.fields.length)
    (hnd : (e.marshal.rtype.fields.map Field.name).Nodup)
    (hvf : (e.marshal.versionField = -1 ∧
        fieldByName e.marshal.rtype "Version" = none) ∨
      (∃ ff : FoundField, fieldByName e.marshal.rtype "Version" = some ff ∧
        ff.indexLen = 1 ∧ ff.vtype = "int" ∧
        e.marshal.versionField = (ff.index0 : Int))) :
    ∃ kvs, stampAndRender e value = renderKVs kvs ∧
      kvs.countP (fun kv => kv.1 == "Version") = 1 ∧
      ("Version", JValue.int (e.latest : Int)) ∈ kvs := by
  by_cases hge : e.marshal.versionField ≥ 0
  · rcases hvf with ⟨hm1, _⟩ | ⟨ff, hff, hlen1, _, hvf⟩
    · omega
    · obtain ⟨f, hfd, hfn, _⟩ := fieldByName_direct _ _ _ hff hlen1
      obtain ⟨hget, hfname⟩ := findDirect_some _ _ _ _ hfd
      have hlt : ff.index0 < e.marshal.rtype.fields.length := by
        obtain ⟨hlt, _⟩ := List.get?_eq_some.mp hget
        exact hlt
      have htn : e.marshal.versionField.toNat = ff.index0 := by omega
      have hget2 : e.marshal.rtype.fields.get? e.marshal.versionField.toNat = some f := by
        rw [htn]; exact hget
      refine ⟨jsonEncodeStruct e.marshal.rtype
        (value.set e.marshal.versionField.toNat (.int (e.latest : Int))), ?_, ?_, ?_⟩
      · simp [stampAndRender, hge]
      · rw [jsonEncodeStruct, encodeFields_countP_version]
        exact countP_version_one _ _ _ hnd hget hfname
      · have hkv := encodeFields_get?
          (value.set e.marshal.versionField.toNat (.int (e.latest : Int)))
          e.marshal.rtype.fields 0 e.marshal.versionField.toNat f hget2
        rw [Nat.zero_add, getD_set_self _ _ _ _ (by omega)] at hkv
        rw [hfname] at hkv
        exact List.get?_mem hkv
  · rcases hvf with ⟨_, hffn⟩ | ⟨ff, _, _, _, hvf⟩
    · have hfdn := fieldByName_none_direct _ _ hffn
      have hcnt0 : (jsonEncodeStruct e.marshal.rtype value).countP
          (fun kv => kv.1 == "Version") = 0 := by
        rw [jsonEncodeStruct, encodeFields_countP_version]
        exact countP_version_zero _ (findDirect_none _ _ hfdn)
      by_cases hd : renderKVs (jsonEncodeStruct e.marshal.rtype value) = [lbrace, rbrace]
      · refine ⟨[("Version", JValue.int (e.latest : Int))], ?_, by simp, by simp⟩
        simp only [stampAndRender, if_neg hge, hd, if_pos rfl]
        exact splice_empty e.latest
      · have hne : jsonEncodeStruct e.marshal.rtype value ≠ [] := by
          intro hnil
          exact hd (by rw [hnil]; rfl)
        obtain ⟨kv, rest, hcons⟩ : ∃ kv rest,
            jsonEncodeStruct e.marshal.rtype value = kv :: rest := by
          cases hkvs : jsonEncodeStruct e.marshal.rtype value with
          | nil => exact absurd hkvs hne
          | cons kv rest => exact ⟨kv, rest, rfl⟩
        refine ⟨("Version", JValue.int (e.latest : Int)) :: kv :: rest, ?_, ?_, by simp⟩
        · simp only [stampAndRender, if_neg hge, hd, if_neg (by exact hd)]
          rw [hcons]
          exact splice_cons e.latest kv rest
        · have : (kv :: rest).countP (fun kv => kv.1 == "Version") = 0 := by
            rw [← hcons]; exact hcnt0
          simp [List.countP_cons, this]
    · omega

/-- Device for the exact-byte conjunct: with no fields at all, the codec
body is the empty object and the splice produces the closed form. -/
theorem stampAndRender_empty (e : Entry) (value : StructVal)
    (hfields : e.marshal.rtype.fields = [])
    (hvf : e.marshal.versionField = -1) :
    stampAndRender e value = versionHeader e.latest ++ [rbrace] := by
  have hge : ¬ e.marshal.versionField ≥ 0 := by omega
  have henc : jsonEncodeStruct e.marshal.rtype value = [] := by
    rw [jsonEncodeStruct, hfields]; rfl
  simp only [stampAndRender, if_neg hge, henc]
  rfl

theorem marshal_tagged (reg : Registry) (p : Proto) (vps : List Proto)
    (e : Entry) (hreg : registerError reg p vps = .ok e)
    (hnd : (e.marshal.rtype.fields.map Field.name).Nodup)
    (input : StructVal) (out : List Char)
    (hm : Marshal ((p.typ, e) :: reg) p.typ input = .ok out) :
    ∃ kvs, out = renderKVs kvs ∧
      kvs.countP (fun kv => kv.1 == "Version") = 1 ∧
      ("Version", JValue.int (e.latest : Int)) ∈ kvs := by
  obtain ⟨entryS, ctxs, lastS, lastM, mm, um, hpt, hlk, hvps, hres, hb,
    hmmd, humd, hev, hrt, hpf, hmapeq, hupf, humap, hvf⟩ :=
    registerError_ok_inv reg p vps e hreg
  rw [← hrt] at hvf
  simp only [Marshal, lookupReg_cons_self] at hm
  cases hpk2 : e.marshal.packFunc with
  | some pk =>
    cases hw : pk (zeroVal e.marshal.rtype) input with
    | error msg => simp [hpk2, hw] at hm
    | ok w =>
      simp only [hpk2, hw] at hm
      obtain rfl : stampAndRender e (asStruct e.marshal.rtype w) = out := by
        cases hm; rfl
      exact stampAndRender_tagged e _ (padFields_length w _ 0) hnd hvf
  | none =>
    simp only [hpk2] at hm
    obtain rfl : stampAndRender e
        (copyFields input (zeroVal e.marshal.rtype) e.marshal.mappings) = out := by
      cases hm; rfl
    refine stampAndRender_tagged e _ ?_ hnd hvf
    rw [copyFields_length, zeroVal, List.length_map]

/-- C1: for every registered live type with latest version N and every
value accepted by `Marshal`, the byte output is a JSON object containing
exactly one top-level `"Version"` key whose integer value is N; and when
the latest shape has no fields and N = 1, the output is exactly the bytes
`\\x7b"Version":1\\x7d`. -/
theorem C1_marshal_version_key (reg : Registry) (p : Proto) (vps : List Proto)
    (e : Entry) (input : StructVal) (out : List Char)
    (hreg : registerError reg p vps = .ok e)
    (hnd : (e.marshal.rtype.fields.map Field.name).Nodup)
    (hm : Marshal ((p.typ, e) :: reg) p.typ input = .ok out) :
    (∃ kvs, out = renderKVs kvs ∧
      kvs.countP (fun kv => kv.1 == "Version") = 1 ∧
      ("Version", JValue.int (e.latest : Int)) ∈ kvs) ∧
    (e.marshal.rtype.fields = [] → e.latest = 1 →
      out = "\x7b\"Version\":1\x7d".data) := by
  constructor
  · exact marshal_tagged reg p vps e hreg hnd input out hm
  · intro hfields hlat
    obtain ⟨entryS, ctxs, lastS, lastM, mm, um, hpt, hlk, hvps, hres, hb,
      hmmd, humd, hev, hrt, hpf, hmapeq, hupf, humap, hvf⟩ :=
      registerError_ok_inv reg p vps e hreg
    have hvfm : e.marshal.versionField = -1 := by
      rcases hvf with ⟨hm1, _⟩ | ⟨ff, hff, hlen1, _, _⟩
      · exact hm1
      · exfalso
        rw [← hrt] at hff
        obtain ⟨f, hfd, _, _⟩ := fieldByName_direct _ _ _ hff hlen1
        rw [hfields] at hfd
        cases hfd
    simp only [Marshal, lookupReg_cons_self] at hm
    cases hpk2 : e.marshal.packFunc with
    | some pk =>
      cases hw : pk (zeroVal e.marshal.rtype) input with
      | error msg => simp [hpk2, hw] at hm
      | ok w =>
        simp only [hpk2, hw] at hm
        obtain rfl : stampAndRender e (asStruct e.marshal.rtype w) = out := by
          cases hm; rfl
        rw [stampAndRender_empty e _ hfields hvfm, hlat]
        decide
    | none =>
      simp only [hpk2] at hm
      obtain rfl : stampAndRender e
          (copyFields input (zeroVal e.marshal.rtype) e.marshal.mappings) = out := by
        cases hm; rfl
      rw [stampAndRender_empty e _ hfields hvfm, hlat]
      decide

/-- Witness for C1: registering an empty struct with a single empty
version shape and marshalling it yields exactly the bytes of
`\\x7b"Version":1\\x7d`, with exactly one Version key. -/
theorem C1_marshal_version_key_witness :
    registerError [] ⟨GoType.strukt ⟨"Empty", [], []⟩, noMethods⟩
        [⟨GoType.strukt ⟨"EmptyV1", [], []⟩, noMethods⟩] =
      .ok ⟨[⟨⟨"EmptyV1", [], []⟩, [], none⟩],
        ⟨⟨"EmptyV1", [], []⟩, none, [], -1⟩, ⟨none, []⟩⟩ ∧
    (∃ kvs, "\x7b\"Version\":1\x7d".data = renderKVs kvs ∧
      kvs.countP (fun kv => kv.1 == "Version") = 1 ∧
      ("Version", JValue.int 1) ∈ kvs) ∧
    Marshal [(GoType.strukt ⟨"Empty", [], []⟩,
        (⟨[⟨⟨"EmptyV1", [], []⟩, [], none⟩],
          ⟨⟨"EmptyV1", [], []⟩, none, [], -1⟩, ⟨none, []⟩⟩ : Entry))]
      (GoType.strukt ⟨"Empty", [], []⟩) [] = .ok "\x7b\"Version\":1\x7d".data := by
  refine ⟨rfl, ?_, rfl⟩
  exact (C1_marshal_version_key [] ⟨GoType.strukt ⟨"Empty", [], []⟩, noMethods⟩
    [⟨GoType.strukt ⟨"EmptyV1", [], []⟩, noMethods⟩]
    ⟨[⟨⟨"EmptyV1", [], []⟩, [], none⟩],
      ⟨⟨"EmptyV1", [], []⟩, none, [], -1⟩, ⟨none, []⟩⟩
    [] "\x7b\"Version\":1\x7d".data rfl (by decide) rfl).1

/-- C2: round-trip law — for any wire object carrying `"Version":k` with
1 ≤ k ≤ N that `Unmarshal` accepts into the live type, re-encoding the
resulting live value with `Marshal` produces output tagged with exactly
the latest version N (so re-encoding never emits a lower version). -/
theorem C2_roundtrip_latest (reg : Registry) (p : Proto) (vps : List Proto)
    (e : Entry) (kvs : List (String × JValue)) (v0 live out : StructVal)
    (k : Int) (outb : List Char)
    (hreg : registerError reg p vps = .ok e)
    (hnd : (e.marshal.rtype.fields.map Field.name).Nodup)
    (hk : decodeVersionField kvs = .ok k)
    (hk1 : 1 ≤ k) (hkN : k ≤ (e.latest : Int))
    (hu : Unmarshal ((p.typ, e) :: reg) (.obj kvs) (.ptr p.typ v0) = .ok live)
    (hm : Marshal ((p.typ, e) :: reg) p.typ live = .ok outb) :
    ∃ kvs', outb = renderKVs kvs' ∧
      kvs'.countP (fun kv => kv.1 == "Version") = 1 ∧
      ("Version", JValue.int (e.latest : Int)) ∈ kvs' := by
  exact marshal_tagged reg p vps e hreg hnd live outb hm

def w2S : GoStruct := ⟨"W2", [⟨"A", "int", none⟩], []⟩
def w2V1 : GoStruct := ⟨"W2V1", [⟨"A", "int", none⟩], []⟩
def w2V2 : GoStruct := ⟨"W2V2", [⟨"A", "int", none⟩], []⟩
def w2Entry : Entry :=
  ⟨[⟨w2V1, [], none⟩, ⟨w2V2, [⟨0, 0⟩], none⟩],
   ⟨w2V2, none, [⟨0, 0⟩], -1⟩, ⟨none, [⟨0, 0⟩]⟩⟩

/-- Witness for C2: a concrete version-1 wire value decodes through the
upgrade chain and re-encodes tagged `"Version":2`. -/
theorem C2_roundtrip_latest_witness :
    Unmarshal [(GoType.strukt w2S, w2Entry)]
      (.obj [("Version", JValue.int 1), ("A", JValue.int 7)])
      (.ptr (GoType.strukt w2S) [JValue.int 0]) = .ok [JValue.int 7] ∧
    Marshal [(GoType.strukt w2S, w2Entry)] (GoType.strukt w2S) [JValue.int 7] =
      .ok "\x7b\"Version\":2,\"A\":7\x7d".data ∧
    ∃ kvs', ("\x7b\"Version\":2,\"A\":7\x7d".data : List Char) = renderKVs kvs' ∧
      kvs'.countP (fun kv => kv.1 == "Version") = 1 ∧
      ("Version", JValue.int 2) ∈ kvs' := by
  refine ⟨rfl, rfl, ?_⟩
  exact C2_roundtrip_latest [] ⟨GoType.strukt w2S, noMethods⟩
    [⟨GoType.strukt w2V1, noMethods⟩, ⟨GoType.strukt w2V2, noMethods⟩]
    w2Entry [("Version", JValue.int 1), ("A", JValue.int 7)]
    [JValue.int 0] [JValue.int 7] [] 1 "\x7b\"Version\":2,\"A\":7\x7d".data
    rfl (by decide) rfl (by decide) (by decide) rfl rfl

/-! ## C5: the field mapper -/

/-- Order used on compiled mappings: by source-field index. -/
def srcLE (a b : Mapping) : Prop := a.src ≤ b.src

theorem mem_insertBySrc (m a : Mapping) :
    ∀ l : List Mapping, a ∈ insertBySrc m l ↔ a = m ∨ a ∈ l := by
  intro l
  induction l with
  | nil => simp [insertBySrc]
  | cons x xs ih =>
    simp only [insertBySrc]
    by_cases h : m.src ≤ x.src
    · simp [h, List.mem_cons]
    · simp only [h, if_false, List.mem_cons, ih]
      tauto

theorem sorted_insertBySrc (m : Mapping) :
    ∀ l : List Mapping, l.Pairwise srcLE → (insertBySrc m l).Pairwise srcLE := by
  intro l
  induction l with
  | nil => intro _; simp [insertBySrc, srcLE]
  | cons x xs ih =>
    intro h
    rw [List.pairwise_cons] at h
    obtain ⟨hx, hxs⟩ := h
    simp only [insertBySrc]
    by_cases hle : m.src ≤ x.src
    · rw [if_pos hle, List.pairwise_cons]
      constructor
      · intro b hb
        rcases List.mem_cons.mp hb with rfl | hb
        · exact hle
        · exact le_trans hle (hx b hb)
      · rw [List.pairwise_cons]
        exact ⟨hx, hxs⟩
    · rw [if_neg hle, List.pairwise_cons]
      constructor
      · intro b hb
        rcases (mem_insertBySrc m b xs).mp hb with rfl | hb
        · unfold srcLE; omega
        · exact hx b hb
      · exact ih hxs

theorem sorted_sortBySrc : ∀ l : List Mapping, (sortBySrc l).Pairwise srcLE := by
  intro l
  induction l with
  | nil => simp [sortBySrc]
  | cons m ms ih => exact sorted_insertBySrc m (sortBySrc ms) ih

theorem mem_sortBySrc (a : Mapping) :
    ∀ l : List Mapping, a ∈ sortBySrc l ↔ a ∈ l := by
  intro l
  induction l with
  | nil => simp [sortBySrc]
  | cons m ms ih =>
    simp only [sortBySrc, mem_insertBySrc, ih, List.mem_cons]

/-- Successful pair collection resolves every destination field without
error. -/
theorem collectPair_resolves (lastS dstS : GoStruct) :
    ∀ (fs : List Field) (i0 : Nat) (ms : List Mapping),
      collectPair lastS dstS i0 fs = .ok ms →
      ∀ (j : Nat) (f : Field), fs.get? j = some f →
        ∃ r, resolvePairField lastS dstS (i0 + j) f = .ok r := by
  intro fs
  induction fs with
  | nil => intro i0 ms _ j f hj; cases hj
  | cons g rest ih =>
    intro i0 ms h j f hj
    simp only [collectPair] at h
    cases hr : resolvePairField lastS dstS i0 g with
    | error er => rw [hr] at h; cases h
    | ok m? =>
      rw [hr] at h
      cases hc : collectPair lastS dstS (i0 + 1) rest with
      | error er => rw [hc] at h; cases h
      | ok ms' =>
        cases j with
        | zero =>
          obtain rfl : g = f := by simpa using hj
          exact ⟨m?, by simpa using hr⟩
        | succ j' =>
          have hj' : rest.get? j' = some f := by simpa using hj
          have := ih (i0 + 1) ms' hc j' f hj'
          simpa [Nat.add_assoc, Nat.add_comm 1 j'] using this

theorem resolveNamed_dst (lastS dstS : GoStruct) (i : Nat) (f : Field)
    (srcName : String) (required : Bool) (m : Mapping)
    (h : resolveNamed lastS dstS i f srcName required = .ok (some m)) :
    m.dst = i := by
  unfold resolveNamed at h
  split at h
  · split at h
    · cases h
    · cases h
  · split at h
    · split at h
      · cases h
      · cases h
    · injection h with h
      injection h with h
      subst h
      rfl

theorem resolvePairField_dst (lastS dstS : GoStruct) (i : Nat) (f : Field)
    (m : Mapping) (h : resolvePairField lastS dstS i f = .ok (some m)) :
    m.dst = i := by
  unfold resolvePairField at h
  split at h
  · split at h
    · cases h
    · exact resolveNamed_dst _ _ _ _ _ _ _ h
  · exact resolveNamed_dst _ _ _ _ _ _ _ h

/-- Every mapping collected for a pair comes from the resolution of the
destination field it targets. -/
theorem collectPair_mem (lastS dstS : GoStruct) :
    ∀ (fs : List Field) (i0 : Nat) (ms : List Mapping),
      collectPair lastS dstS i0 fs = .ok ms →
      ∀ m ∈ ms, ∃ (j : Nat) (f : Field), fs.get? j = some f ∧ m.dst = i0 + j ∧
        resolvePairField lastS dstS (i0 + j) f = .ok (some m) := by
  intro fs
  induction fs with
  | nil =>
    intro i0 ms h m hm
    cases h
    cases hm
  | cons g rest ih =>
    intro i0 ms h m hm
    simp only [collectPair] at h
    cases hr : resolvePairField lastS dstS i0 g with
    | error er => rw [hr] at h; cases h
    | ok m? =>
      rw [hr] at h
      cases hc : collectPair lastS dstS (i0 + 1) rest with
      | error er => rw [hc] at h; cases h
      | ok ms' =>
        rw [hc] at h
        have hrec := ih (i0 + 1) ms' hc
        have hmem : m ∈ ms' ∨ m? = some m := by
          cases hm? : m? with
          | none =>
            rw [hm?] at h
            cases h
            exact Or.inl hm
          | some m0 =>
            rw [hm?] at h
            cases h
            rcases List.mem_cons.mp hm with rfl | hm'
            · exact Or.inr rfl
            · exact Or.inl hm'
        rcases hmem with hm' | hm0
        · obtain ⟨j, f, hj, hdst, hres⟩ := hrec m hm'
          refine ⟨j + 1, f, by simpa using hj, by omega, ?_⟩
          have heq : (i0 + 1) + j = i0 + (j + 1) := by omega
          rw [← heq]
          exact hres
        · subst hm0
          refine ⟨0, g, by simp, ?_, by simpa using hr⟩
          have := resolvePairField_dst lastS dstS i0 g m hr
          omega

/-- The source name a destination field resolves to: its own name, or the
name given by its rename directive. -/
def srcNameOf (f : Field) : String :=
  match f.tag with
  | some t => t
  | none => f.name

theorem computePairMappings_error_of_resolve (ls ds : GoStruct) (i : Nat)
    (f : Field) (er0 : RegErr) (hf : ds.fields.get? i = some f)
    (hre : resolvePairField ls ds i f = .error er0) :
    ∃ er, computePairMappings ls ds = .error er := by
  cases h : computePairMappings ls ds with
  | error er => exact ⟨er, rfl⟩
  | ok ms =>
    exfalso
    unfold computePairMappings at h
    cases hc : collectPair ls ds 0 ds.fields with
    | error er => rw [hc] at h; cases h
    | ok ms0 =>
      obtain ⟨r, hr⟩ := collectPair_resolves ls ds ds.fields 0 ms0 hc i f hf
      rw [Nat.zero_add, hre] at hr
      cases hr

theorem collectMarshal_facts (lastS : GoStruct) :
    ∀ (fs : List Field) (i0 : Nat) (ms : List Mapping),
      collectMarshal lastS i0 fs = .ok ms →
      (∀ m ∈ ms, i0 ≤ m.src) ∧ ms.Pairwise srcLE := by
  intro fs
  induction fs with
  | nil =>
    intro i0 ms h
    cases h
    refine ⟨?_, by simp⟩
    intro m hm
    cases hm
  | cons g rest ih =>
    intro i0 ms h
    simp only [collectMarshal] at h
    cases hg : fieldByName lastS g.name with
    | none =>
      simp only [hg] at h
      obtain ⟨hb, hs⟩ := ih (i0 + 1) ms h
      exact ⟨fun m hm => by have := hb m hm; omega, hs⟩
    | some ff =>
      simp only [hg] at h
      split at h
      · cases h
      · cases hc : collectMarshal lastS (i0 + 1) rest with
        | error er => simp only [hc] at h; cases h
        | ok ms' =>
          simp only [hc] at h
          cases h
          obtain ⟨hb, hs⟩ := ih (i0 + 1) ms' hc
          refine ⟨?_, ?_⟩
          · intro m hm
            rcases List.mem_cons.mp hm with rfl | hm'
            · exact le_refl _
            · have := hb m hm'; omega
          · rw [List.pairwise_cons]
            refine ⟨fun m hm => ?_, hs⟩
            have := hb m hm
            show i0 ≤ m.src
            omega

theorem collectMarshal_resolves (lastS : GoStruct) :
    ∀ (fs : List Field) (i0 : Nat) (ms : List Mapping),
      collectMarshal lastS i0 fs = .ok ms →
      ∀ (j : Nat) (f : Field), fs.get? j = some f →
        ∀ ff, fieldByName lastS f.name = some ff → ff.vtype = f.vtype := by
  intro fs
  induction fs with
  | nil => intro i0 ms _ j f hj; cases hj
  | cons g rest ih =>
    intro i0 ms h j f hj
    simp only [collectMarshal] at h
    cases hg : fieldByName lastS g.name with
    | none =>
      simp only [hg] at h
      cases j with
      | zero =>
        obtain rfl : g = f := by simpa using hj
        intro ff hff
        simp only [hg] at hff
        cases hff
      | succ j' => exact ih (i0 + 1) ms h j' f (by simpa using hj)
    | some ff0 =>
      simp only [hg] at h
      split at h
      · cases h
      · cases hc : collectMarshal lastS (i0 + 1) rest with
        | error er => simp only [hc] at h; cases h
        | ok ms' =>
          simp only [hc] at h
          cases h
          cases j with
          | zero =>
            obtain rfl : g = f := by simpa using hj
            intro ff hff
            simp only [hg] at hff
            injection hff with hff
            subst hff
            rename_i hty
            simpa using hty
          | succ j' => exact ih (i0 + 1) ms' hc j' f (by simpa using hj)

theorem collectUnmarshal_facts (entryS : GoStruct) :
    ∀ (fs : List Field) (i0 : Nat) (ms : List Mapping),
      collectUnmarshal entryS i0 fs = .ok ms →
      (∀ m ∈ ms, i0 ≤ m.src) ∧ ms.Pairwise srcLE := by
  intro fs
  induction fs with
  | nil =>
    intro i0 ms h
    cases h
    refine ⟨?_, by simp⟩
    intro m hm
    cases hm
  | cons g rest ih =>
    intro i0 ms h
    simp only [collectUnmarshal] at h
    cases hg : fieldByName entryS g.name with
    | none =>
      simp only [hg] at h
      obtain ⟨hb, hs⟩ := ih (i0 + 1) ms h
      exact ⟨fun m hm => by have := hb m hm; omega, hs⟩
    | some ff =>
      simp only [hg] at h
      split at h
      · cases h
      · cases hc : collectUnmarshal entryS (i0 + 1) rest with
        | error er => simp only [hc] at h; cases h
        | ok ms' =>
          simp only [hc] at h
          cases h
          obtain ⟨hb, hs⟩ := ih (i0 + 1) ms' hc
          refine ⟨?_, ?_⟩
          · intro m hm
            rcases List.mem_cons.mp hm with rfl | hm'
            · exact le_refl _
            · have := hb m hm'; omega
          · rw [List.pairwise_cons]
            refine ⟨fun m hm => ?_, hs⟩
            have := hb m hm
            show i0 ≤ m.src
            omega

/-! ## Tag erasure: live↔latest mapping ignores rename directives -/

def stripTags (s : GoStruct) : GoStruct :=
  ⟨s.sname, s.fields.map (fun f => ⟨f.name, f.vtype, none⟩), s.promoted⟩

theorem findDirectAux_stripTags (n : String) :
    ∀ (fs : List Field) (i : Nat),
      findDirectAux n i (fs.map (fun f => (⟨f.name, f.vtype, none⟩ : Field))) =
        (findDirectAux n i fs).map (fun p => (p.1, ⟨p.2.name, p.2.vtype, none⟩)) := by
  intro fs
  induction fs with
  | nil => intro i; rfl
  | cons g rest ih =>
    intro i
    simp only [List.map_cons, findDirectAux]
    by_cases hg : g.name = n
    · simp [hg]
    · simp only [hg, if_false, if_neg hg]
      exact ih (i + 1)

theorem fieldByName_stripTags (s : GoStruct) (n : String) :
    fieldByName (stripTags s) n = fieldByName s n := by
  unfold fieldByName stripTags findDirect
  rw [findDirectAux_stripTags]
  cases findDirectAux n 0 s.fields with
  | none => rfl
  | some p => rfl

theorem collectMarshal_stripTags (lastS : GoStruct) :
    ∀ (fs : List Field) (i0 : Nat),
      collectMarshal (stripTags lastS) i0
          (fs.map (fun f => (⟨f.name, f.vtype, none⟩ : Field))) =
        collectMarshal lastS i0 fs := by
  intro fs
  induction fs with
  | nil => intro i0; rfl
  | cons g rest ih =>
    intro i0
    simp only [List.map_cons, collectMarshal, fieldByName_stripTags]
    cases fieldByName lastS g.name with
    | none => exact ih (i0 + 1)
    | some ff =>
      simp only []
      rw [ih (i0 + 1)]

theorem collectUnmarshal_stripTags (entryS : GoStruct) :
    ∀ (fs : List Field) (i0 : Nat),
      collectUnmarshal (stripTags entryS) i0
          (fs.map (fun f => (⟨f.name, f.vtype, none⟩ : Field))) =
        collectUnmarshal entryS i0 fs := by
  intro fs
  induction fs with
  | nil => intro i0; rfl
  | cons g rest ih =>
    intro i0
    simp only [List.map_cons, collectUnmarshal, fieldByName_stripTags]
    cases fieldByName entryS g.name with
    | none => exact ih (i0 + 1)
    | some ff =>
      simp only []
      rw [ih (i0 + 1)]

/-! ## Inversion of the per-version registration loop -/

theorem buildVersionList_cons_inv (seen : List GoType) (lastS : Option GoStruct)
    (ver : Nat) (vp : Proto) (rest : List Proto)
    (out : List VersionCtx × GoStruct × Methods)
    (h : buildVersionList seen lastS ver (vp :: rest) = .ok out) :
    ∃ (rtype : GoStruct) (mappings : List Mapping),
      vp.typ = .strukt rtype ∧
      vp.typ ∉ seen ∧
      (lastS = none ∧ mappings = [] ∨
        ∃ ls, lastS = some ls ∧ computePairMappings ls rtype = .ok mappings) ∧
      (rest ≠ [] → vp.methods.pack = none ∧ vp.methods.unpack = none) ∧
      ((rest = [] ∧
          out = ([⟨rtype, mappings, vp.methods.upgrade⟩], rtype, vp.methods)) ∨
       (∃ ctxs2 ls2 lm2,
          buildVersionList (vp.typ :: seen) (some rtype) (ver + 1) rest =
            .ok (ctxs2, ls2, lm2) ∧
          out = (⟨rtype, mappings, vp.methods.upgrade⟩ :: ctxs2, ls2, lm2))) := by
  cases hpt : vp.typ with
  | named n => simp [buildVersionList, hpt] at h
  | strukt rtype =>
    simp only [buildVersionList, hpt] at h
    refine ⟨rtype, ?_⟩
    by_cases hseen : vp.typ ∈ seen
    · rw [hpt] at hseen
      rw [if_pos hseen] at h
      cases h
    · rw [hpt] at hseen
      rw [if_neg hseen] at h
      have hmap : ∃ mappings,
          (match lastS with
            | none => Except.ok []
            | some ls => computePairMappings ls rtype) = Except.ok mappings ∧
          (lastS = none ∧ mappings = [] ∨
            ∃ ls, lastS = some ls ∧ computePairMappings ls rtype = .ok mappings) := by
        cases hls : lastS with
        | none => exact ⟨[], rfl, Or.inl ⟨rfl, rfl⟩⟩
        | some ls =>
          cases hcp : computePairMappings ls rtype with
          | error er =>
            simp [hls, hcp] at h
          | ok ms => exact ⟨ms, hcp, Or.inr ⟨ls, rfl, hcp⟩⟩
      obtain ⟨mappings, hmeq, hmfact⟩ := hmap
      simp only [hmeq] at h
      by_cases hpkc : (!rest.isEmpty && vp.methods.pack.isSome) = true
      · rw [if_pos hpkc] at h; cases h
      · rw [if_neg hpkc] at h
        by_cases hupc : (!rest.isEmpty && vp.methods.unpack.isSome) = true
        · rw [if_pos hupc] at h; cases h
        · rw [if_neg hupc] at h
          have hhk : rest ≠ [] → vp.methods.pack = none ∧ vp.methods.unpack = none := by
            intro hne
            have hni : rest.isEmpty = false := by
              cases rest with
              | nil => exact absurd rfl hne
              | cons a b => rfl
            constructor
            · rw [Bool.and_eq_true, Bool.not_eq_true', hni] at hpkc
              have hns : ¬ vp.methods.pack.isSome = true := fun hs => hpkc ⟨rfl, hs⟩
              exact Option.not_isSome_iff_eq_none.mp hns
            · rw [Bool.and_eq_true, Bool.not_eq_true', hni] at hupc
              have hns : ¬ vp.methods.unpack.isSome = true := fun hs => hupc ⟨rfl, hs⟩
              exact Option.not_isSome_iff_eq_none.mp hns
          by_cases hre : rest.isEmpty = true
          · rw [if_pos hre] at h
            cases h
            have : rest = [] := by
              cases rest with
              | nil => rfl
              | cons a b => cases hre
            exact ⟨mappings, rfl, hseen, hmfact, hhk, Or.inl ⟨this, rfl⟩⟩
          · rw [if_neg hre] at h
            cases hrec : buildVersionList (vp.typ :: seen) (some rtype) (ver + 1)
                rest with
            | error er =>
              rw [hpt] at hrec
              simp only [hrec] at h
              exact Except.noConfusion h
            | ok trip =>
              obtain ⟨ctxs2, ls2, lm2⟩ := trip
              rw [hpt] at hrec
              simp only [hrec] at h
              cases h
              exact ⟨mappings, rfl, hseen, hmfact, hhk,
                Or.inr ⟨ctxs2, ls2, lm2, hrec, rfl⟩⟩

theorem computePairMappings_sorted (ls ds : GoStruct) (ms : List Mapping)
    (h : computePairMappings ls ds = .ok ms) : ms.Pairwise srcLE := by
  unfold computePairMappings at h
  cases hc : collectPair ls ds 0 ds.fields with
  | error er => rw [hc] at h; cases h
  | ok ms0 =>
    rw [hc] at h
    cases h
    exact sorted_sortBySrc ms0

theorem buildVersionList_all_structs :
    ∀ (l : List Proto) (seen : List GoType) (lastS : Option GoStruct) (ver : Nat)
      (out : List VersionCtx × GoStruct × Methods),
      buildVersionList seen lastS ver l = .ok out →
      ∀ vp ∈ l, ∃ s, vp.typ = .strukt s := by
  intro l
  induction l with
  | nil => intro seen lastS ver out h; cases h
  | cons vp0 rest ih =>
    intro seen lastS ver out h vp hvp
    obtain ⟨rtype, mappings, hpt, _, _, _, hlast⟩ :=
      buildVersionList_cons_inv seen lastS ver vp0 rest out h
    rcases List.mem_cons.mp hvp with rfl | hmem
    · exact ⟨rtype, hpt⟩
    · rcases hlast with ⟨hnil, _⟩ | ⟨ctxs2, ls2, lm2, hrec, _⟩
      · rw [hnil] at hmem; cases hmem
      · exact ih _ _ _ _ hrec vp hmem

theorem buildVersionList_nonlatest_hooks :
    ∀ (l : List Proto) (seen : List GoType) (lastS : Option GoStruct) (ver : Nat)
      (out : List VersionCtx × GoStruct × Methods),
      buildVersionList seen lastS ver l = .ok out →
      ∀ (i : Nat) (vp : Proto), l.get? i = some vp → i + 1 < l.length →
        vp.methods.pack = none ∧ vp.methods.unpack = none := by
  intro l
  induction l with
  | nil => intro seen lastS ver out h; cases h
  | cons vp0 rest ih =>
    intro seen lastS ver out h i vp hi hlen
    obtain ⟨rtype, mappings, _, _, _, hhk, hlast⟩ :=
      buildVersionList_cons_inv seen lastS ver vp0 rest out h
    cases i with
    | zero =>
      obtain rfl : vp0 = vp := by simpa using hi
      apply hhk
      intro hnil
      rw [hnil] at hlen
      simp at hlen
    | succ i' =>
      have hi' : rest.get? i' = some vp := by simpa using hi
      have hlen' : i' + 1 < rest.length := by
        simp only [List.length_cons] at hlen
        omega
      rcases hlast with ⟨hnil, _⟩ | ⟨ctxs2, ls2, lm2, hrec, _⟩
      · rw [hnil] at hi'; cases hi'
      · exact ih _ _ _ _ hrec i' vp hi' hlen'

theorem buildVersionList_adjacent :
    ∀ (l : List Proto) (seen : List GoType) (lastS : Option GoStruct) (ver : Nat)
      (out : List VersionCtx × GoStruct × Methods),
      buildVersionList seen lastS ver l = .ok out →
      ∀ (i : Nat) (a b : Proto) (sa sb : GoStruct),
        l.get? i = some a → l.get? (i + 1) = some b →
        a.typ = .strukt sa → b.typ = .strukt sb →
        ∃ ms, computePairMappings sa sb = .ok ms := by
  intro l
  induction l with
  | nil => intro seen lastS ver out h; cases h
  | cons vp0 rest ih =>
    intro seen lastS ver out h i a b sa sb ha hb hsa hsb
    obtain ⟨rtype, mappings, hpt, _, _, _, hlast⟩ :=
      buildVersionList_cons_inv seen lastS ver vp0 rest out h
    rcases hlast with ⟨hnil, _⟩ | ⟨ctxs2, ls2, lm2, hrec, _⟩
    · subst hnil
      cases i with
      | zero => cases hb
      | succ i' => cases ha
    · cases i with
      | zero =>
        obtain rfl : vp0 = a := by simpa using ha
        have hb' : rest.get? 0 = some b := by simpa using hb
        obtain rfl : sa = rtype := by
          rw [hpt] at hsa
          injection hsa with hsa
          exact hsa.symm
        cases hrest : rest with
        | nil => rw [hrest] at hb'; cases hb'
        | cons b0 rest' =>
          rw [hrest] at hb'
          obtain rfl : b0 = b := by simpa using hb'
          rw [hrest] at hrec
          obtain ⟨rtypeb, mappingsb, hptb, _, hmapb, _, _⟩ :=
            buildVersionList_cons_inv _ _ _ _ rest' _ hrec
          obtain rfl : sb = rtypeb := by
            rw [hptb] at hsb
            injection hsb with hsb
            exact hsb.symm
          rcases hmapb with ⟨hcontra, _⟩ | ⟨ls0, hls0, hcp⟩
          · cases hcontra
          · obtain rfl : ls0 = sa := by
              injection hls0 with hls0
              exact hls0.symm
            exact ⟨mappingsb, hcp⟩
      | succ i' =>
        exact ih _ _ _ _ hrec i' a b sa sb (by simpa using ha) (by simpa using hb)
          hsa hsb

theorem buildVersionList_nodup :
    ∀ (l : List Proto) (seen : List GoType) (lastS : Option GoStruct) (ver : Nat)
      (out : List VersionCtx × GoStruct × Methods),
      buildVersionList seen lastS ver l = .ok out →
      (∀ vp ∈ l, vp.typ ∉ seen) ∧ (l.map (fun vp => vp.typ)).Nodup := by
  intro l
  induction l with
  | nil => intro seen lastS ver out h; cases h
  | cons vp0 rest ih =>
    intro seen lastS ver out h
    obtain ⟨rtype, mappings, hpt, hseen, _, _, hlast⟩ :=
      buildVersionList_cons_inv seen lastS ver vp0 rest out h
    rcases hlast with ⟨hnil, _⟩ | ⟨ctxs2, ls2, lm2, hrec, _⟩
    · subst hnil
      refine ⟨?_, by simp⟩
      intro vp hvp
      rcases List.mem_cons.mp hvp with rfl | hmem
      · exact hseen
      · cases hmem
    · obtain ⟨hnot, hnd⟩ := ih _ _ _ _ hrec
      constructor
      · intro vp hvp
        rcases List.mem_cons.mp hvp with rfl | hmem
        · exact hseen
        · intro hcontra
          exact hnot vp hmem (List.mem_cons_of_mem _ hcontra)
      · rw [List.map_cons, List.nodup_cons]
        constructor
        · intro hcontra
          obtain ⟨vp', hvp', heq⟩ := List.mem_map.mp hcontra
          have := hnot vp' hvp'
          rw [heq] at this
          exact this (List.mem_cons_self _ _)
        · exact hnd

theorem buildVersionList_last :
    ∀ (l : List Proto) (seen : List GoType) (lastS : Option GoStruct) (ver : Nat)
      (ctxs : List VersionCtx) (ls : GoStruct) (lm : Methods),
      buildVersionList seen lastS ver l = .ok (ctxs, ls, lm) →
      ∃ lp, l.get? (l.length - 1) = some lp ∧ lp.typ = .strukt ls ∧ lp.methods = lm := by
  intro l
  induction l with
  | nil => intro seen lastS ver ctxs ls lm h; cases h
  | cons vp0 rest ih =>
    intro seen lastS ver ctxs ls lm h
    obtain ⟨rtype, mappings, hpt, _, _, _, hlast⟩ :=
      buildVersionList_cons_inv seen lastS ver vp0 rest (ctxs, ls, lm) h
    rcases hlast with ⟨hnil, hout⟩ | ⟨ctxs2, ls2, lm2, hrec, hout⟩
    · subst hnil
      obtain ⟨rfl, rfl, rfl⟩ : ctxs = [⟨rtype, mappings, vp0.methods.upgrade⟩] ∧
          ls = rtype ∧ lm = vp0.methods := by
        injection hout with h1 h2
        injection h2 with h2 h3
        exact ⟨h1.symm ▸ rfl, h2.symm ▸ rfl, h3.symm ▸ rfl⟩
      exact ⟨vp0, rfl, hpt, rfl⟩
    · obtain ⟨rfl, rfl, rfl⟩ : ctxs = ⟨rtype, mappings, vp0.methods.upgrade⟩ :: ctxs2 ∧
          ls = ls2 ∧ lm = lm2 := by
        injection hout with h1 h2
        injection h2 with h2 h3
        exact ⟨h1.symm ▸ rfl, h2.symm ▸ rfl, h3.symm ▸ rfl⟩
      obtain ⟨lp, hlp, hlpt, hlpm⟩ := ih _ _ _ _ _ _ hrec
      refine ⟨lp, ?_, hlpt, hlpm⟩
      have hne : rest ≠ [] := by
        intro hnil
        rw [hnil] at hlp
        cases hlp
      have hlen : 1 ≤ rest.length := by
        cases rest with
        | nil => exact absurd rfl hne
        | cons a b => simp
      have : (vp0 :: rest).length - 1 = (rest.length - 1) + 1 := by
        simp only [List.length_cons]
        omega
      rw [this]
      simpa using hlp

theorem buildVersionList_ctx_sorted :
    ∀ (l : List Proto) (seen : List GoType) (lastS : Option GoStruct) (ver : Nat)
      (ctxs : List VersionCtx) (ls : GoStruct) (lm : Methods),
      buildVersionList seen lastS ver l = .ok (ctxs, ls, lm) →
      ∀ ctx ∈ ctxs, ctx.mappings.Pairwise srcLE := by
  intro l
  induction l with
  | nil => intro seen lastS ver ctxs ls lm h; cases h
  | cons vp0 rest ih =>
    intro seen lastS ver ctxs ls lm h
    obtain ⟨rtype, mappings, _, _, hmap, _, hlast⟩ :=
      buildVersionList_cons_inv seen lastS ver vp0 rest (ctxs, ls, lm) h
    have hmsorted : mappings.Pairwise srcLE := by
      rcases hmap with ⟨_, rfl⟩ | ⟨ls0, _, hcp⟩
      · simp
      · exact computePairMappings_sorted _ _ _ hcp
    rcases hlast with ⟨_, hout⟩ | ⟨ctxs2, ls2, lm2, hrec, hout⟩
    · intro ctx hctx
      have h1 : ctxs = [⟨rtype, mappings, vp0.methods.upgrade⟩] :=
        congrArg Prod.fst hout
      rw [h1] at hctx
      obtain rfl : ctx = ⟨rtype, mappings, vp0.methods.upgrade⟩ := by simpa using hctx
      exact hmsorted
    · intro ctx hctx
      have h1 : ctxs = ⟨rtype, mappings, vp0.methods.upgrade⟩ :: ctxs2 :=
        congrArg Prod.fst hout
      rw [h1] at hctx
      rcases List.mem_cons.mp hctx with rfl | hmem
      · exact hmsorted
      · exact ih _ _ _ _ _ _ hrec ctx hmem

def c5Live : GoStruct := ⟨"P5", [⟨"Foo", "string", none⟩], []⟩
def c5V1 : GoStruct := ⟨"P5V1", [⟨"Foo", "string", some ""⟩], []⟩
def c5Reg : Registry :=
  (register [] ⟨.strukt c5Live, noMethods⟩ [⟨.strukt c5V1, noMethods⟩]).1

/-- Counterexample to C5: rename directives are consulted only by the
adjacent-version mapper.  The version shape's `Foo` field carries an empty
`vjson:""` directive, yet the LiveType→latest mapping still copies it —
registration compiles the mapping (0,0) and `Marshal` emits the field's
value instead of leaving it at its zero value. -/
theorem C5_empty_tag_counterexample :
    (registerError [] ⟨.strukt c5Live, noMethods⟩
        [⟨.strukt c5V1, noMethods⟩]).map (fun e => e.marshal.mappings) =
      .ok [⟨0, 0⟩] ∧
    Marshal c5Reg (.strukt c5Live) [JValue.str "hi"] =
      .ok "\x7b\"Version\":1,\"Foo\":\"hi\"\x7d".data :=
  ⟨rfl, rfl⟩

/-- C5 (amended): at registration time, in the adjacent-version mapper a
destination field with an empty rename directive is skipped entirely; an
implicitly-named field whose source is missing as a direct field is
skipped without error, while an explicit rename with a missing source is a
registration error; matched fields with differing types are a registration
error (in the live↔latest mappers too); and the collected mappings are
ordered by source index in all three contexts.  However, the
LiveType→latest and latest→LiveType mappers ignore rename directives
entirely and match by field name alone (tag erasure leaves them
unchanged). -/
theorem C5_field_mapper :
    (∀ (ls ds : GoStruct) (i : Nat) (f : Field) (ms : List Mapping),
        ds.fields.get? i = some f → f.tag = some "" →
        computePairMappings ls ds = .ok ms → ∀ m ∈ ms, m.dst ≠ i) ∧
    (∀ (ls ds : GoStruct) (i : Nat) (f : Field) (ms : List Mapping),
        ds.fields.get? i = some f → f.tag = none →
        directSource ls f.name = none →
        computePairMappings ls ds = .ok ms → ∀ m ∈ ms, m.dst ≠ i) ∧
    (∀ (ls ds : GoStruct) (i : Nat) (f : Field) (tg : String),
        ds.fields.get? i = some f → f.tag = some tg → tg ≠ "" →
        directSource ls tg = none →
        ∃ er, computePairMappings ls ds = .error er) ∧
    (∀ (ls ds : GoStruct) (i : Nat) (f : Field) (ff : FoundField),
        ds.fields.get? i = some f → f.tag ≠ some "" →
        directSource ls (srcNameOf f) = some ff → ff.vtype ≠ f.vtype →
        ∃ er, computePairMappings ls ds = .error er) ∧
    (∀ (ls ds : GoStruct) (ms : List Mapping),
        computePairMappings ls ds = .ok ms → ms.Pairwise srcLE) ∧
    (∀ (a b : GoStruct) (ms : List Mapping),
        computeMarshalMappings a b = .ok ms → ms.Pairwise srcLE) ∧
    (∀ (a b : GoStruct) (ms : List Mapping),
        computeUnmarshalMappings a b = .ok ms → ms.Pairwise srcLE) ∧
    (∀ (a b : GoStruct) (i : Nat) (f : Field) (ff : FoundField),
        a.fields.get? i = some f → fieldByName b f.name = some ff →
        ff.vtype ≠ f.vtype → ∃ er, computeMarshalMappings a b = .error er) ∧
    (∀ a b : GoStruct,
        computeMarshalMappings (stripTags a) (stripTags b) =
          computeMarshalMappings a b ∧
        computeUnmarshalMappings (stripTags a) (stripTags b) =
          computeUnmarshalMappings a b) ∧
    (∀ (reg : Registry) (p : Proto) (vps : List Proto) (e : Entry),
        registerError reg p vps = .ok e →
        e.marshal.mappings.Pairwise srcLE ∧
        e.unmarshal.mappings.Pairwise srcLE ∧
        ∀ ctx ∈ e.versions, ctx.mappings.Pairwise srcLE) := by
  have hkey : ∀ (ls ds : GoStruct) (i : Nat) (f : Field) (ms0 : List Mapping),
      collectPair ls ds 0 ds.fields = .ok ms0 →
      ds.fields.get? i = some f →
      ∀ m ∈ ms0, m.dst = i → resolvePairField ls ds i f = .ok (some m) := by
    intro ls ds i f ms0 hc hf m hm hdst
    obtain ⟨j, f', hj, hdj, hres⟩ := collectPair_mem ls ds ds.fields 0 ms0 hc m hm
    rw [Nat.zero_add] at hdj hres
    obtain rfl : j = i := by omega
    obtain rfl : f' = f := by
      rw [hf] at hj
      injection hj with hj
      exact hj.symm
    exact hres
  refine ⟨?_, ?_, ?_, ?_, ?_, ?_, ?_, ?_, ?_, ?_⟩
  · intro ls ds i f ms hf htag hok m hm hdst
    unfold computePairMappings at hok
    cases hc : collectPair ls ds 0 ds.fields with
    | error er => rw [hc] at hok; cases hok
    | ok ms0 =>
      rw [hc] at hok
      cases hok
      have hres := hkey ls ds i f ms0 hc hf m ((mem_sortBySrc m ms0).mp hm) hdst
      simp [resolvePairField, htag] at hres
  · intro ls ds i f ms hf htag hds hok m hm hdst
    unfold computePairMappings at hok
    cases hc : collectPair ls ds 0 ds.fields with
    | error er => rw [hc] at hok; cases hok
    | ok ms0 =>
      rw [hc] at hok
      cases hok
      have hres := hkey ls ds i f ms0 hc hf m ((mem_sortBySrc m ms0).mp hm) hdst
      simp [resolvePairField, htag, resolveNamed, hds] at hres
  · intro ls ds i f tg hf htag htg hds
    have hre : resolvePairField ls ds i f =
        .error (.missingTagSource f.name ds.sname tg ls.sname) := by
      simp [resolvePairField, htag, htg, resolveNamed, hds]
    exact computePairMappings_error_of_resolve ls ds i f _ hf hre
  · intro ls ds i f ff hf htag hds hty
    have hre : ∃ er0, resolvePairField ls ds i f = .error er0 := by
      cases htg2 : f.tag with
      | none =>
        have hds' : directSource ls f.name = some ff := by
          simpa [srcNameOf, htg2] using hds
        by_cases hn : ff.name = f.name
        · exact ⟨.typeMismatch f.name,
            by simp [resolvePairField, htg2, resolveNamed, hds', hty, hn]⟩
        · exact ⟨.renamedTypeMismatch ff.name f.name,
            by simp [resolvePairField, htg2, resolveNamed, hds', hty, hn]⟩
      | some tg =>
        have htgne : tg ≠ "" := by
          intro hcontra
          rw [htg2, hcontra] at htag
          exact htag rfl
        have hds' : directSource ls tg = some ff := by
          simpa [srcNameOf, htg2] using hds
        by_cases hn : ff.name = f.name
        · exact ⟨.typeMismatch f.name,
            by simp [resolvePairField, htg2, htgne, resolveNamed, hds', hty, hn]⟩
        · exact ⟨.renamedTypeMismatch ff.name f.name,
            by simp [resolvePairField, htg2, htgne, resolveNamed, hds', hty, hn]⟩
    obtain ⟨er0, hre⟩ := hre
    exact computePairMappings_error_of_resolve ls ds i f er0 hf hre
  · intro ls ds ms hok
    exact computePairMappings_sorted ls ds ms hok
  · intro a b ms hok
    exact (collectMarshal_facts b a.fields 0 ms hok).2
  · intro a b ms hok
    exact (collectUnmarshal_facts b a.fields 0 ms hok).2
  · intro a b i f ff hf hff hty
    cases h : computeMarshalMappings a b with
    | error er => exact ⟨er, rfl⟩
    | ok ms =>
      exfalso
      exact hty (collectMarshal_resolves b a.fields 0 ms h i f hf ff hff)
  · intro a b
    constructor
    · unfold computeMarshalMappings stripTags
      exact collectMarshal_stripTags b a.fields 0
    · unfold computeUnmarshalMappings stripTags
      exact collectUnmarshal_stripTags b a.fields 0
  · intro reg p vps e hreg
    obtain ⟨entryS, ctxs, lastS, lastM, mm, um, hpt, hlk, hvps, hres, hb,
      hmmd, humd, hev, hrt, hpf, hmapeq, hupf, humap, hvf⟩ :=
      registerError_ok_inv reg p vps e hreg
    refine ⟨?_, ?_, ?_⟩
    · rw [hmapeq]
      rcases hmmd with ⟨_, rfl⟩ | ⟨_, hcm⟩
      · simp
      · exact (collectMarshal_facts lastS entryS.fields 0 mm hcm).2
    · rw [humap]
      rcases humd with ⟨_, rfl⟩ | ⟨_, hcm⟩
      · simp
      · exact (collectUnmarshal_facts entryS lastS.fields 0 um hcm).2
    · rw [hev]
      exact buildVersionList_ctx_sorted vps [p.typ] none 1 ctxs lastS lastM hb

/-- Witness for C5: a concrete explicit rename with a missing source is a
registration error, and the compiled mappings of a concrete registration
are sorted by source index. -/
theorem C5_field_mapper_witness :
    (∃ er, computePairMappings ⟨"LS", [], []⟩
        ⟨"DS", [⟨"F", "int", some "Gone"⟩], []⟩ = .error er) ∧
    ([(⟨0, 0⟩ : Mapping)].Pairwise srcLE) := by
  constructor
  · exact C5_field_mapper.2.2.1 ⟨"LS", [], []⟩ ⟨"DS", [⟨"F", "int", some "Gone"⟩], []⟩
      0 ⟨"F", "int", some "Gone"⟩ "Gone" rfl rfl (by decide) rfl
  · have h := (C5_field_mapper.2.2.2.2.2.2.2.2.2 [] ⟨.strukt c5Live, noMethods⟩
      [⟨.strukt c5V1, noMethods⟩]
      ⟨[⟨c5V1, [], none⟩], ⟨c5V1, none, [⟨0, 0⟩], -1⟩, ⟨none, [⟨0, 0⟩]⟩⟩ rfl).1
    simpa using h

/-! ## C6 and C9: registration validation is all-or-nothing -/

theorem register_fail_of_not_ok (reg : Registry) (p : Proto) (vps : List Proto)
    (h : ∀ e, registerError reg p vps ≠ .ok e) :
    (register reg p vps).1 = reg ∧ (register reg p vps).2.isSome := by
  unfold register
  cases hre : registerError reg p vps with
  | ok e => exact absurd hre (h e)
  | error er => exact ⟨rfl, rfl⟩

/-- C6: `Register` returns an error and leaves the registry entirely
unmutated whenever: no version prototypes are given; the live or any
version prototype is not a struct; the live type declares a `Version`
field; the live type is already registered; an adjacent-pair mapping or a
live↔latest mapping step fails (type mismatch / missing rename target); or
a Pack/Unpack method sits on a non-latest version shape.  On success it
stores exactly one fully compiled entry keyed by the live type and touches
nothing else. -/
theorem C6_register_all_or_nothing :
    (∀ (reg : Registry) (p : Proto) (vps : List Proto),
        (register reg p vps).2.isSome → (register reg p vps).1 = reg) ∧
    (∀ (reg : Registry) (p : Proto) (vps : List Proto), vps = [] →
        (register reg p vps).1 = reg ∧ (register reg p vps).2.isSome) ∧
    (∀ (reg : Registry) (p : Proto) (vps : List Proto) (n : String),
        p.typ = .named n →
        (register reg p vps).1 = reg ∧ (register reg p vps).2.isSome) ∧
    (∀ (reg : Registry) (p : Proto) (vps : List Proto) (s : GoStruct),
        p.typ = .strukt s → (fieldByName s "Version").isSome →
        (register reg p vps).1 = reg ∧ (register reg p vps).2.isSome) ∧
    (∀ (reg : Registry) (p : Proto) (vps : List Proto),
        (lookupReg reg p.typ).isSome →
        (register reg p vps).1 = reg ∧ (register reg p vps).2.isSome) ∧
    (∀ (reg : Registry) (p : Proto) (vps : List Proto) (i : Nat) (vp : Proto)
        (n : String), vps.get? i = some vp → vp.typ = .named n →
        (register reg p vps).1 = reg ∧ (register reg p vps).2.isSome) ∧
    (∀ (reg : Registry) (p : Proto) (vps : List Proto) (i : Nat) (vp : Proto),
        vps.get? i = some vp → i + 1 < vps.length →
        (vp.methods.pack.isSome ∨ vp.methods.unpack.isSome) →
        (register reg p vps).1 = reg ∧ (register reg p vps).2.isSome) ∧
    (∀ (reg : Registry) (p : Proto) (vps : List Proto) (i : Nat) (a b : Proto)
        (sa sb : GoStruct) (er : RegErr),
        vps.get? i = some a → vps.get? (i + 1) = some b →
        a.typ = .strukt sa → b.typ = .strukt sb →
        computePairMappings sa sb = .error er →
        (register reg p vps).1 = reg ∧ (register reg p vps).2.isSome) ∧
    (∀ (reg : Registry) (p : Proto) (vps : List Proto) (s : GoStruct) (lp : Proto)
        (ls : GoStruct) (er : RegErr), p.typ = .strukt s →
        vps.get? (vps.length - 1) = some lp → lp.typ = .strukt ls →
        lp.methods.pack = none → computeMarshalMappings s ls = .error er →
        (register reg p vps).1 = reg ∧ (register reg p vps).2.isSome) ∧
    (∀ (reg : Registry) (p : Proto) (vps : List Proto) (s : GoStruct) (lp : Proto)
        (ls : GoStruct) (er : RegErr), p.typ = .strukt s →
        vps.get? (vps.length - 1) = some lp → lp.typ = .strukt ls →
        lp.methods.unpack = none → computeUnmarshalMappings ls s = .error er →
        (register reg p vps).1 = reg ∧ (register reg p vps).2.isSome) ∧
    (∀ (reg : Registry) (p : Proto) (vps : List Proto) (e : Entry),
        registerError reg p vps = .ok e →
        register reg p vps = ((p.typ, e) :: reg, none) ∧
        lookupReg ((p.typ, e) :: reg) p.typ = some e ∧
        ∀ t, t ≠ p.typ → lookupReg ((p.typ, e) :: reg) t = lookupReg reg t) := by
  refine ⟨?_, ?_, ?_, ?_, ?_, ?_, ?_, ?_, ?_, ?_, ?_⟩
  · intro reg p vps h
    unfold register at h ⊢
    cases hre : registerError reg p vps with
    | ok e => rw [hre] at h; cases h
    | error er => rfl
  · intro reg p vps hnil
    refine register_fail_of_not_ok reg p vps (fun e hok => ?_)
    obtain ⟨_, _, _, _, _, _, _, _, hvps, _⟩ := registerError_ok_inv reg p vps e hok
    exact hvps hnil
  · intro reg p vps n hpt
    refine register_fail_of_not_ok reg p vps (fun e hok => ?_)
    obtain ⟨entryS, _, _, _, _, _, hpt2, _⟩ := registerError_ok_inv reg p vps e hok
    rw [hpt] at hpt2
    cases hpt2
  · intro reg p vps s hpt hver
    refine register_fail_of_not_ok reg p vps (fun e hok => ?_)
    obtain ⟨entryS, _, _, _, _, _, hpt2, _, _, hres, _⟩ :=
      registerError_ok_inv reg p vps e hok
    rw [hpt] at hpt2
    injection hpt2 with hpt2
    rw [← hpt2] at hres
    rw [hres] at hver
    cases hver
  · intro reg p vps hlk
    refine register_fail_of_not_ok reg p vps (fun e hok => ?_)
    obtain ⟨_, _, _, _, _, _, _, hlk2, _⟩ := registerError_ok_inv reg p vps e hok
    rw [hlk2] at hlk
    cases hlk
  · intro reg p vps i vp n hi hpt
    refine register_fail_of_not_ok reg p vps (fun e hok => ?_)
    obtain ⟨_, _, _, _, _, _, _, _, _, _, hb, _⟩ :=
      registerError_ok_inv reg p vps e hok
    obtain ⟨s, hs⟩ := buildVersionList_all_structs vps _ _ _ _ hb vp
      (List.get?_mem hi)
    rw [hpt] at hs
    cases hs
  · intro reg p vps i vp hi hlen hsome
    refine register_fail_of_not_ok reg p vps (fun e hok => ?_)
    obtain ⟨_, _, _, _, _, _, _, _, _, _, hb, _⟩ :=
      registerError_ok_inv reg p vps e hok
    obtain ⟨hpk, hup⟩ := buildVersionList_nonlatest_hooks vps _ _ _ _ hb i vp hi hlen
    rcases hsome with hs | hs
    · rw [hpk] at hs; cases hs
    · rw [hup] at hs; cases hs
  · intro reg p vps i a b sa sb er ha hb2 hsa hsb hcp
    refine register_fail_of_not_ok reg p vps (fun e hok => ?_)
    obtain ⟨_, _, _, _, _, _, _, _, _, _, hb, _⟩ :=
      registerError_ok_inv reg p vps e hok
    obtain ⟨ms, hms⟩ := buildVersionList_adjacent vps _ _ _ _ hb i a b sa sb
      ha hb2 hsa hsb
    rw [hcp] at hms
    cases hms
  · intro reg p vps s lp ls er hpt hlp hlpt hlpk hcm
    refine register_fail_of_not_ok reg p vps (fun e hok => ?_)
    obtain ⟨entryS, ctxs, lastS, lastM, mm, um, hpt2, _, _, _, hb, hmmd, _⟩ :=
      registerError_ok_inv reg p vps e hok
    obtain ⟨lp2, hlp2, hlpt2, hlpm2⟩ := buildVersionList_last vps _ _ _ _ _ _ hb
    rw [hlp] at hlp2
    obtain rfl : lp2 = lp := (Option.some.inj hlp2).symm
    rw [hlpt] at hlpt2
    obtain rfl : ls = lastS := GoType.strukt.inj hlpt2
    rw [hpt] at hpt2
    obtain rfl : s = entryS := GoType.strukt.inj hpt2
    rcases hmmd with ⟨hs2, _⟩ | ⟨_, hcm2⟩
    · rw [← hlpm2, hlpk] at hs2
      cases hs2
    · rw [hcm] at hcm2
      cases hcm2
  · intro reg p vps s lp ls er hpt hlp hlpt hlpu hcm
    refine register_fail_of_not_ok reg p vps (fun e hok => ?_)
    obtain ⟨entryS, ctxs, lastS, lastM, mm, um, hpt2, _, _, _, hb, _, humd, _⟩ :=
      registerError_ok_inv reg p vps e hok
    obtain ⟨lp2, hlp2, hlpt2, hlpm2⟩ := buildVersionList_last vps _ _ _ _ _ _ hb
    rw [hlp] at hlp2
    obtain rfl : lp2 = lp := (Option.some.inj hlp2).symm
    rw [hlpt] at hlpt2
    obtain rfl : ls = lastS := GoType.strukt.inj hlpt2
    rw [hpt] at hpt2
    obtain rfl : s = entryS := GoType.strukt.inj hpt2
    rcases humd with ⟨hs2, _⟩ | ⟨_, hcm2⟩
    · rw [← hlpm2, hlpu] at hs2
      cases hs2
    · rw [hcm] at hcm2
      cases hcm2
  · intro reg p vps e hre
    refine ⟨?_, lookupReg_cons_self reg p.typ e, ?_⟩
    · unfold register
      rw [hre]
    · intro t ht
      exact lookupReg_cons_ne reg p.typ t e ht

def c6Live : GoStruct := ⟨"C6L", [⟨"A", "int", none⟩], []⟩
def c6V1 : GoStruct := ⟨"C6V1", [⟨"A", "string", none⟩], []⟩

/-- Witness for C6: a live/latest type mismatch (`A int` vs `A string`)
makes registration fail and leave the registry unchanged; a successful
registration stores exactly the one new entry. -/
theorem C6_register_all_or_nothing_witness :
    ((register [] ⟨.strukt c6Live, noMethods⟩ [⟨.strukt c6V1, noMethods⟩]).1 = [] ∧
      (register [] ⟨.strukt c6Live, noMethods⟩ [⟨.strukt c6V1, noMethods⟩]).2.isSome) ∧
    ((register [] ⟨.strukt c5Live, noMethods⟩ [⟨.strukt c5V1, noMethods⟩] =
        ((GoType.strukt c5Live,
          (⟨[⟨c5V1, [], none⟩], ⟨c5V1, none, [⟨0, 0⟩], -1⟩,
            ⟨none, [⟨0, 0⟩]⟩⟩ : Entry)) :: [], none)) ∧
      lookupReg ((GoType.strukt c5Live,
          (⟨[⟨c5V1, [], none⟩], ⟨c5V1, none, [⟨0, 0⟩], -1⟩,
            ⟨none, [⟨0, 0⟩]⟩⟩ : Entry)) :: []) (GoType.strukt c5Live) =
        some ⟨[⟨c5V1, [], none⟩], ⟨c5V1, none, [⟨0, 0⟩], -1⟩, ⟨none, [⟨0, 0⟩]⟩⟩) := by
  constructor
  · exact C6_register_all_or_nothing.2.2.2.2.2.2.2.2.1 [] ⟨.strukt c6Live, noMethods⟩
      [⟨.strukt c6V1, noMethods⟩] c6Live ⟨.strukt c6V1, noMethods⟩ c6V1
      (.typeMismatch "A") rfl rfl rfl rfl rfl
  · have h := C6_register_all_or_nothing.2.2.2.2.2.2.2.2.2.2 []
      ⟨.strukt c5Live, noMethods⟩ [⟨.strukt c5V1, noMethods⟩]
      ⟨[⟨c5V1, [], none⟩], ⟨c5V1, none, [⟨0, 0⟩], -1⟩, ⟨none, [⟨0, 0⟩]⟩⟩ rfl
    exact ⟨h.1, h.2.1⟩

/-- C9: `Register` fails, leaving the registry unchanged, whenever the
same struct type appears more than once in a single call — twice among the
version prototypes, or as both the live type and a version prototype. -/
theorem C9_duplicate_prototypes (reg : Registry) (p : Proto) (vps : List Proto)
    (h : ¬ (p.typ :: vps.map (fun vp => vp.typ)).Nodup) :
    (register reg p vps).1 = reg ∧ (register reg p vps).2.isSome := by
  refine register_fail_of_not_ok reg p vps (fun e hok => ?_)
  obtain ⟨_, _, _, _, _, _, _, _, _, _, hb, _⟩ :=
    registerError_ok_inv reg p vps e hok
  obtain ⟨hnot, hnd⟩ := buildVersionList_nodup vps [p.typ] none 1 _ hb
  apply h
  rw [List.nodup_cons]
  constructor
  · intro hmem
    obtain ⟨vp, hvp, heq⟩ := List.mem_map.mp hmem
    exact hnot vp hvp (by rw [heq]; exact List.mem_cons_self _ _)
  · exact hnd

/-- Witness for C9: registering with the same version struct twice fails
and leaves the registry empty. -/
theorem C9_duplicate_prototypes_witness :
    (register [] ⟨.strukt ⟨"C9L", [], []⟩, noMethods⟩
      [⟨.strukt ⟨"C9V", [], []⟩, noMethods⟩,
       ⟨.strukt ⟨"C9V", [], []⟩, noMethods⟩]).1 = [] ∧
    (register [] ⟨.strukt ⟨"C9L", [], []⟩, noMethods⟩
      [⟨.strukt ⟨"C9V", [], []⟩, noMethods⟩,
       ⟨.strukt ⟨"C9V", [], []⟩, noMethods⟩]).2.isSome :=
  C9_duplicate_prototypes [] ⟨.strukt ⟨"C9L", [], []⟩, noMethods⟩
    [⟨.strukt ⟨"C9V", [], []⟩, noMethods⟩, ⟨.strukt ⟨"C9V", [], []⟩, noMethods⟩]
    (by decide)

/-! ## C10: destination validation -/

/-- C10: `Unmarshal` validates its destination before any registry lookup:
a nil interface, a non-pointer and a typed nil pointer each yield their own
distinct error — for every registry (in particular the empty one, showing
no NotRegistered error can fire first) and every input. -/
theorem C10_dest_validation (reg : Registry) (data : RawData) (t t' : GoType) :
    Unmarshal reg data Dest.nilInterface = Except.error VErr.unmarshalNil ∧
    Unmarshal reg data (Dest.nonPtr t) = Except.error (VErr.unmarshalNonPtr (typeName t)) ∧
    Unmarshal reg data (Dest.nilPtr t') = Except.error (VErr.unmarshalNilPtr (typeName t')) ∧
    VErr.unmarshalNil ≠ VErr.unmarshalNonPtr (typeName t) ∧
    VErr.unmarshalNil ≠ VErr.unmarshalNilPtr (typeName t') ∧
    VErr.unmarshalNonPtr (typeName t) ≠ VErr.unmarshalNilPtr (typeName t') := by
  refine ⟨rfl, rfl, rfl, ?_, ?_, ?_⟩ <;> intro h <;> cases h

end VJson
